import Mathlib

/-!
Verification of the decimal bignum / RSA-style line-encryption core
(`bignum.cpp` / `bignum.hpp`).

The C++ class `Bignum` stores an arbitrary-precision non-negative integer as
`std::vector<int>` of decimal digits, most significant digit first.  We embed
it shallowly as `List Nat` (MSD first).  Pure member functions become Lean
functions; the two `while` loops whose termination is not structural (the
subtract-loop inside `operator/` and the halving loop of `mod_exponent`) are
embedded with an explicit fuel parameter, and the C++ functions that call
them are recovered by instantiating the fuel with a provably sufficient
value.  `std::async`/`std::thread` blocks compute pure values from their
captures and are joined before use, so they are embedded by their sequential
equivalents.

Characters (`char` in C++) are embedded as their code points (`Nat`), a
`std::string` as `List Nat`.
-/

namespace BignumSpec

/-- Value of a little-endian (least significant digit first) digit list. -/
def valL : List Nat → Nat
  | [] => 0
  | d :: ds => d + 10 * valL ds

/-- Numeric value of a `Bignum` digit vector (most significant digit first),
the interpretation used throughout `bignum.cpp`. -/
def val (l : List Nat) : Nat := valL l.reverse

/-- All entries are decimal digits.  This holds for every vector the C++
code builds from a digit string and is preserved by all its operations. -/
def digitsOk (l : List Nat) : Prop := ∀ d ∈ l, d < 10

/-- The canonical-form invariant from the spec: nonempty, and no leading
zero unless the length is exactly 1. -/
def shapeOk (l : List Nat) : Prop := l ≠ [] ∧ (l.length = 1 ∨ l.headD 0 ≠ 0)

/-- Canonical representation: the invariant shape together with all entries
being decimal digits. -/
def canonical (l : List Nat) : Prop := shapeOk l ∧ digitsOk l

/-- Embedding of `Bignum::remove_excess`: drop leading zeros while more than
one digit remains. -/
def remove_excess : List Nat → List Nat
  | [] => []
  | d :: ds => if d = 0 ∧ ds ≠ [] then remove_excess ds else d :: ds

/-- Embedding of `std::lexicographical_compare` on two digit ranges (only
ever reached by `operator<` on ranges of equal length). -/
def lexLt : List Nat → List Nat → Bool
  | [], [] => false
  | [], _ :: _ => true
  | _ :: _, [] => false
  | a :: as, b :: bs => if a < b then true else if b < a then false else lexLt as bs

/-- Embedding of `Bignum::operator<`: shorter vector first, lexicographic on
equal lengths. -/
def blt (a b : List Nat) : Bool :=
  if a.length = b.length then lexLt a b else decide (a.length < b.length)

/-- One digit position of `Bignum::operator-`: the current difference with
incoming borrow, and the outgoing borrow (the `curr_diff < 0` branch). -/
def subDigit (x y c : Nat) : Nat × Nat :=
  if x < y + c then (x + 10 - (y + c), 1) else (x - (y + c), 0)

/-- Continuation of the borrow loop of `Bignum::operator-` once the minuend
digits are exhausted (the C++ loop keeps running with `first_dig = 0`);
split out so both loops are structurally recursive. -/
def subLSDNil : List Nat → Nat → List Nat × Nat
  | [], c => ([], c)
  | y :: ys, c =>
      let p := subDigit 0 y c
      let r := subLSDNil ys p.2
      (p.1 :: r.1, r.2)

/-- The digit loop of `Bignum::operator-`, run least significant digit
first (the C++ loop runs the indices backwards); missing digits of the
shorter operand are read as 0.  Returns the digit list (LSD first) and the
final borrow, which the C++ code drops. -/
def subLSD : List Nat → List Nat → Nat → List Nat × Nat
  | [], ys, c => subLSDNil ys c
  | x :: xs, [], c =>
      let p := subDigit x 0 c
      let r := subLSD xs [] p.2
      (p.1 :: r.1, r.2)
  | x :: xs, y :: ys, c =>
      let p := subDigit x y c
      let r := subLSD xs ys p.2
      (p.1 :: r.1, r.2)

/-- Embedding of `Bignum::operator-`: digit-wise subtraction with borrow,
then `remove_excess`. -/
def bsub (a b : List Nat) : List Nat :=
  remove_excess ((subLSD a.reverse b.reverse 0).1.reverse)

/-- The inner loop of `Bignum::operator*` for a fixed outer index `i` holding
digit `ai`: the C++ loop runs `j` from `other.size()-1` down to `0`, so fuel
`f` means the indices `f-1, …, 0` remain; `cp` of the C++ body
(`ai * b[j] + product[i+j+1] + carry`) is inlined. -/
def mulInner (ai : Nat) (b : List Nat) (i : Nat) : Nat → List Nat → Nat → List Nat × Nat
  | 0, prod, carry => (prod, carry)
  | f + 1, prod, carry =>
      mulInner ai b i f
        (prod.set (i + f + 1) ((ai * b.getD f 0 + prod.getD (i + f + 1) 0 + carry) % 10))
        ((ai * b.getD f 0 + prod.getD (i + f + 1) 0 + carry) / 10)

/-- The outer loop of `Bignum::operator*`: index `i` runs from
`bignum_vector.size()-1` down to `0` (fuel `f` means indices `f-1, …, 0`
remain); a zero digit is skipped (`continue`), otherwise the inner loop runs
and its final carry is added into `product[i]`. -/
def mulOuter (a b : List Nat) : Nat → List Nat → List Nat
  | 0, prod => prod
  | f + 1, prod =>
      if a.getD f 0 = 0 then mulOuter a b f prod
      else
        mulOuter a b f
          ((mulInner (a.getD f 0) b f b.length prod 0).1.set f
            ((mulInner (a.getD f 0) b f b.length prod 0).1.getD f 0
              + (mulInner (a.getD f 0) b f b.length prod 0).2))

/-- Embedding of `Bignum::operator*`: the product buffer starts as
`size_a + size_b` zeros, both loops run, then `remove_excess`. -/
def bmul (a b : List Nat) : List Nat :=
  remove_excess (mulOuter a b a.length (List.replicate (a.length + b.length) 0))

/-- The inner zero-stripping of `operator/`
(`while (!rem.empty() && rem[0] == 0) erase(begin)`); unlike
`remove_excess` this may empty the vector. -/
def stripZeros (l : List Nat) : List Nat := l.dropWhile (· == 0)

/-- The subtract-count loop of `operator/`
(`while (!(rem < other)) { rem = rem - other; curr_div++; }`), with fuel;
`none` means the fuel ran out (for a zero divisor the C++ loop runs
forever). -/
def divStep (other : List Nat) : List Nat → Nat → Option (List Nat × Nat)
  | _, 0 => none
  | rem, fuel + 1 =>
      if blt rem other then some (rem, 0)
      else
        match divStep other (bsub rem other) fuel with
        | some (r, q) => some (r, q + 1)
        | none => none

/-- The per-digit loop of `operator/`: push the next dividend digit onto the
remainder, strip leading zeros, run the subtract loop, append its count as
the next quotient digit. -/
def divLoop (other : List Nat) :
    List Nat → List Nat → List Nat → Nat → Option (List Nat × List Nat)
  | [], quo, rem, _ => some (quo, rem)
  | d :: ds, quo, rem, fuel =>
      match divStep other (stripZeros (rem ++ [d])) fuel with
      | some (rem2, q) => divLoop other ds (quo ++ [q]) rem2 fuel
      | none => none

/-- Fuelled embedding of `Bignum::operator/`: the quotient accumulator
starts as the digit vector of `Bignum("0")`, i.e. `[0]`, the remainder
starts empty, and the result is trimmed by `remove_excess`. -/
def bdivF (a b : List Nat) (fuel : Nat) : Option (List Nat) :=
  match divLoop b a [0] [] fuel with
  | some p => some (remove_excess p.1)
  | none => none

/-- Embedding of `Bignum::operator/`.  For a nonzero divisor every inner
subtract loop counts at most 9 subtractions, so any fuel of at least 10
suffices and `val a + 10` recovers the C++ function exactly; for a zero
divisor the C++ loop never terminates (see the divergence theorem below)
and the dead `none` branch returns `[0]`. -/
def bdiv (a b : List Nat) : List Nat :=
  match bdivF a b (val a + 10) with
  | some q => q
  | none => [0]

/-- Embedding of `Bignum::operator%`: `*this - ((*this / other) * other)`. -/
def bmod (a b : List Nat) : List Nat := bsub a (bmul (bdiv a b) b)

/-- The parity test of `mod_exponent`
(`curr_exponent.bignum_vector.back() % 2 != 0`). -/
def bodd (e : List Nat) : Bool := e.getLastD 0 % 2 != 0

/-- The square-and-multiply loop of `Bignum::mod_exponent`, with fuel.  The
`std::async` multiply branch computes `(mod_exp * curr_base) % modulus` from
the values captured before any update and is joined (under the mutex) before
`curr_base` and `curr_exponent` are reassigned, so one loop iteration is
exactly the sequential step below; the loop guard is
`!(curr_exponent == Bignum("0"))`, i.e. `e ≠ [0]` on digit vectors. -/
def modExpLoop (m : List Nat) :
    Nat → List Nat → List Nat → List Nat → Option (List Nat)
  | 0, mexp, _, e => if e = [0] then some mexp else none
  | fuel + 1, mexp, base, e =>
      if e = [0] then some mexp
      else
        modExpLoop m fuel
          (if bodd e then bmod (bmul mexp base) m else mexp)
          (bmod (bmul base base) m)
          (bdiv e [2])

/-- Embedding of `Bignum::mod_exponent`: `mod_exp` starts as `Bignum("1")`,
the base is first reduced `% modulus`, the loop halves the exponent, and
`remove_excess` runs on the result.  Fuel `val e + 2` always suffices (the
exponent value strictly shrinks under halving), so the dead `none` branch
returns `[1]`. -/
def mod_exponent (base e m : List Nat) : List Nat :=
  remove_excess ((modExpLoop m (val e + 2) [1] (bmod base m) e).getD [1])

/-- Canonical decimal digits of a natural number, most significant first
(`[0]` for 0), with an explicit fuel to keep the recursion structural;
`n < fuel` always holds for the wrapper's choice `n + 1`.  This embeds the
plain decimal formatting done by `std::ostringstream` in the C++ code. -/
def natDigitsAux : Nat → Nat → List Nat
  | 0, _ => []
  | fuel + 1, n => if n < 10 then [n] else natDigitsAux fuel (n / 10) ++ [n % 10]

/-- Decimal digit string of a natural number, most significant digit
first. -/
def natDigits (n : Nat) : List Nat := natDigitsAux (n + 1) n

/-- Embedding of `std::setw(3) << std::setfill('0') << code` in
`Bignum::string_to_bignum`: the 3-digit zero-padded decimal field of a
character code.  In the source the code passes through `unsigned char`, so
it is at most 255 and the field is always exactly 3 digits wide; this
formula is that exact field for every code below 1000. -/
def char3 (c : Nat) : List Nat := [c / 100, c / 10 % 10, c % 10]

/-- Embedding of `Bignum::string_to_bignum`: concatenate the 3-digit codes
of all characters and parse the result as a digit vector (the
`Bignum(std::string)` constructor keeps leading zeros). -/
def string_to_bignum : List Nat → List Nat
  | [] => []
  | c :: cs => char3 c ++ string_to_bignum cs

/-- Embedding of `Bignum::to_string` as used on digit vectors (every stored
digit is a single decimal digit there, so `std::to_string` contributes one
character `'0' + d`, code `48 + d`). -/
def bn_to_string (l : List Nat) : List Nat := l.map (fun d => 48 + d)

/-- Embedding of the `Bignum(const std::string &)` constructor: each
character code becomes `ch - '0'`; no validation and no trimming. -/
def bignumOfString (s : List Nat) : List Nat := s.map (fun c => c - 48)

/-- The left zero-padding step of `Bignum::bignum_to_string`: insert `'0'`
characters until the digit count is a multiple of 3. -/
def padMul3 (l : List Nat) : List Nat :=
  if l.length % 3 = 0 then l else List.replicate (3 - l.length % 3) 0 ++ l

/-- The grouping loop of `Bignum::bignum_to_string`: each 3-digit group is
`std::stoi`-parsed and `static_cast<char>` keeps its low byte, so the
produced code point is the group value mod 256 (for decrypted frames every
group is below 256, where the reduction is the identity).  The caller pads
to a multiple of 3 first, so the short-tail fallback is never hit. -/
def groups3 : List Nat → List Nat
  | d0 :: d1 :: d2 :: rest => (d0 * 100 + d1 * 10 + d2) % 256 :: groups3 rest
  | _ => []

/-- Embedding of `Bignum::bignum_to_string`. -/
def bignum_to_string (l : List Nat) : List Nat := groups3 (padMul3 l)

/-- Embedding of `std::setw(3) << std::setfill(' ') << line_num` in
`Bignum::padding`: the decimal digits of the line number as characters
(`48 + d`), left-padded with spaces (code 32) to width 3.  Note the fill
character is a space, not a zero. -/
def lineNumField (ln : Nat) : List Nat :=
  List.replicate (3 - (natDigits ln).length) 32 ++ (natDigits ln).map (fun d => 48 + d)

/-- Embedding of `Bignum::padding` on the domain where the C++ `size_t`
length arithmetic does not wrap: the line-number field, the input,
`(102 - (field + input).length) - 3` spaces, and the field again.  As long
as the field plus the input stays at most 99 characters (always the case
for line numbers up to 999 with inputs of at most 96 characters) the
subtrahends never exceed their minuends and truncated Nat subtraction
agrees with the C++; `paddingChecked` below is the full embedding
including the wrap-and-throw failure mode outside that domain. -/
def padding (input : List Nat) (ln : Nat) : List Nat :=
  lineNumField ln ++ input
    ++ List.replicate (102 - (lineNumField ln ++ input).length - 3) 32
    ++ lineNumField ln

/-- The truncation step of `Bignum::large_encrypt`
(`line.substr(0, MAX_CHARS_PER_CHUNK)` when the line exceeds 96
characters; `List.take` is the identity on shorter lines, like the guarded
`substr`). -/
def truncate96 (line : List Nat) : List Nat := line.take 96

/-- One per-line task of `Bignum::large_encrypt` (the body of the
`std::async` lambda): encode each 51-character half of the padded frame
(`substr(0,51)` and `substr(51)`), raise it to the public exponent `ek`
modulo `nk`, and serialise.  The RSA key constants are `"TO_FILL"`
placeholders in the source, so the keys are parameters here (spec §3:
external configuration). -/
def encryptLine (ek nk padded : List Nat) : List Nat × List Nat :=
  (bn_to_string (mod_exponent (string_to_bignum (padded.take 51)) ek nk),
   bn_to_string (mod_exponent (string_to_bignum (padded.drop 51)) ek nk))

/-- The line loop of `Bignum::large_encrypt`: line numbers count from 1 and
one task is pushed per line; the futures compute pure values of their
captured frame and `large_encrypt` collects them in push order, so the
sequential list of per-line results is the observable behaviour. -/
def encryptLines (ek nk : List Nat) :
    List (List Nat) → Nat → List (List Nat × List Nat)
  | [], _ => []
  | line :: rest, ln =>
      encryptLine ek nk (padding (truncate96 line) ln)
        :: encryptLines ek nk rest (ln + 1)

/-- Embedding of `Bignum::large_encrypt` on input already split into lines
(the `std::getline` splitting belongs to the CLI layer, out of scope per
spec §1). -/
def large_encrypt (ek nk : List Nat) (lines : List (List Nat)) :
    List (List Nat × List Nat) :=
  encryptLines ek nk lines 1

/-- `size_t` subtraction as performed in `Bignum::padding`: subtraction
modulo `2 ^ 64` (every operand in the code is a string length, far below
`2 ^ 64`, so the modelling is exact there). -/
def sizeSub (a b : Nat) : Nat := (a + 2 ^ 64 - b) % 2 ^ 64

/-- Full embedding of `Bignum::padding` including its failure mode.  The
C++ computes `padding_check = 102 - result.length()` and calls
`result.append(padding_check - 3, ' ')`, all on `size_t`: once `result`
(line-number field plus input) reaches 100 characters the space count
wraps to at least `2 ^ 64 - 3`, and `std::string::append` throws
`std::length_error` (`std::string::max_size()` lies strictly between
every honest count, at most 96, and every wrapped count, at least
`2 ^ 64 - 7`, so the cutoff `2 ^ 62` decides the throw exactly on every
reachable input); `none` models that exception. -/
def paddingChecked (input : List Nat) (ln : Nat) : Option (List Nat) :=
  if sizeSub (sizeSub 102 (lineNumField ln ++ input).length) 3 ≤ 2 ^ 62 then
    some (lineNumField ln ++ input
      ++ List.replicate (sizeSub (sizeSub 102 (lineNumField ln ++ input).length) 3) 32
      ++ lineNumField ln)
  else none

/-- One step of the checked line loop: combine the framing result of the
current line with the outcome of the remaining lines.  If either fails —
this line's padding threw, or a later line's did — the exception escapes
`large_encrypt` and nothing is returned. -/
def consLine (ek nk : List Nat) :
    Option (List Nat) → Option (List (List Nat × List Nat))
      → Option (List (List Nat × List Nat))
  | some padded, some ps => some (encryptLine ek nk padded :: ps)
  | _, _ => none

/-- The line loop of `Bignum::large_encrypt` with the framing failure
modelled: `padding` runs synchronously while the tasks are pushed, so a
`std::length_error` on any line propagates out of `large_encrypt` and no
list of pairs is returned at all (`none`); when every line frames
successfully the collected list is that of `encryptLines`. -/
def encryptLinesChecked (ek nk : List Nat) :
    List (List Nat) → Nat → Option (List (List Nat × List Nat))
  | [], _ => some []
  | line :: rest, ln =>
      consLine ek nk (paddingChecked (truncate96 line) ln)
        (encryptLinesChecked ek nk rest (ln + 1))

/-- Embedding of `Bignum::large_encrypt` including the framing failure
mode: `none` means the call throws and returns nothing. -/
def large_encryptChecked (ek nk : List Nat) (lines : List (List Nat)) :
    Option (List (List Nat × List Nat)) :=
  encryptLinesChecked ek nk lines 1

/-- The trailing-space strip of `Bignum::large_decrypt`
(`while (!empty && back == ' ') pop_back()`). -/
def rstripSpaces (l : List Nat) : List Nat :=
  (l.reverse.dropWhile (· == 32)).reverse

/-- The `substr(3, length - 6)` step of `Bignum::large_decrypt`.  For
inputs of length at least 6 it drops 3 characters at each end; below 6 the
`size_t` count wraps and C++ `substr` takes everything after index 3
(below 3 it throws, which no caller reaches; decrypted frames are 204
characters long). -/
def dropFrameMarks (s : List Nat) : List Nat :=
  if 6 ≤ s.length then (s.drop 3).take (s.length - 6) else s.drop 3

/-- Embedding of `Bignum::large_decrypt` (`dk`/`nk` are `priv_exp` and
`public_mod`): parse and decrypt both halves (the two `std::thread`s
compute independent pure values and are joined first), decode and
concatenate, drop the line-number marks, and strip trailing spaces. -/
def large_decrypt (dk nk first second : List Nat) : List Nat :=
  rstripSpaces (dropFrameMarks
    (bignum_to_string (mod_exponent (bignumOfString first) dk nk)
      ++ bignum_to_string (mod_exponent (bignumOfString second) dk nk)))

/-- Brute-force repeated-multiplication reference for exponentiation, as
named by the spec's testable property for `mod_exponent`. -/
def powBrute (b : Nat) : Nat → Nat
  | 0 => 1
  | n + 1 => powBrute b n * b

/-- A toy RSA modulus for concrete instances: the digit vector of
`10 ^ 153`, which exceeds the value encoded by every 51-character
half-block. -/
def toyModulus : List Nat := 1 :: List.replicate 153 0

instance (l : List Nat) : Decidable (digitsOk l) :=
  decidable_of_iff (∀ d ∈ l, d < 10) Iff.rfl

instance (l : List Nat) : Decidable (shapeOk l) :=
  decidable_of_iff (l ≠ [] ∧ (l.length = 1 ∨ l.headD 0 ≠ 0)) Iff.rfl

instance (l : List Nat) : Decidable (canonical l) :=
  decidable_of_iff (shapeOk l ∧ digitsOk l) Iff.rfl

theorem valL_append : ∀ x y : List Nat,
    valL (x ++ y) = valL x + 10 ^ x.length * valL y
  | [], y => by simp [valL]
  | d :: ds, y => by
      have ih := valL_append ds y
      simp only [List.cons_append, valL, List.length_cons, List.append_eq]
      rw [ih]
      ring

theorem val_nil : val [] = 0 := rfl

theorem val_cons (d : Nat) (l : List Nat) :
    val (d :: l) = d * 10 ^ l.length + val l := by
  simp only [val, List.reverse_cons, valL_append, List.length_reverse, valL]
  ring

theorem val_append (x y : List Nat) :
    val (x ++ y) = val x * 10 ^ y.length + val y := by
  simp only [val, List.reverse_append, valL_append, List.length_reverse]
  ring

theorem val_append_digit (x : List Nat) (d : Nat) :
    val (x ++ [d]) = 10 * val x + d := by
  simp only [val, List.reverse_append, List.reverse_cons, List.reverse_nil,
    List.nil_append, List.cons_append, valL]
  ring

theorem val_lt_pow {l : List Nat} (h : digitsOk l) : val l < 10 ^ l.length := by
  induction l with
  | nil => simp [val_nil]
  | cons d ds ih =>
      have hd : d < 10 := h d (List.mem_cons_self d ds)
      have hds : digitsOk ds := fun x hx => h x (List.mem_cons_of_mem d hx)
      have h1 := ih hds
      calc val (d :: ds) = d * 10 ^ ds.length + val ds := val_cons d ds
        _ < d * 10 ^ ds.length + 10 ^ ds.length := by omega
        _ = (d + 1) * 10 ^ ds.length := by ring
        _ ≤ 10 * 10 ^ ds.length := by
            exact Nat.mul_le_mul_right _ (by omega)
        _ = 10 ^ (d :: ds).length := by
            simp [List.length_cons, pow_succ]; ring

theorem pow_le_val {l : List Nat} (hne : l ≠ []) (hh : l.headD 0 ≠ 0) :
    10 ^ (l.length - 1) ≤ val l := by
  cases l with
  | nil => exact absurd rfl hne
  | cons d ds =>
      simp only [List.headD_cons] at hh
      have : 1 * 10 ^ ds.length ≤ d * 10 ^ ds.length :=
        Nat.mul_le_mul_right _ (by omega)
      simp only [val_cons, List.length_cons, Nat.add_sub_cancel]
      omega

theorem val_inj_of_length_eq :
    ∀ {x y : List Nat}, digitsOk x → digitsOk y → x.length = y.length →
      val x = val y → x = y := by
  intro x
  induction x with
  | nil =>
      intro y _ _ hlen _
      cases y with
      | nil => rfl
      | cons b bs => simp at hlen
  | cons a as ih =>
      intro y hx hy hlen hval
      cases y with
      | nil => simp at hlen
      | cons b bs =>
          have ha : a < 10 := hx a (List.mem_cons_self a as)
          have hb : b < 10 := hy b (List.mem_cons_self b bs)
          have has : digitsOk as := fun d hd => hx d (List.mem_cons_of_mem a hd)
          have hbs : digitsOk bs := fun d hd => hy d (List.mem_cons_of_mem b hd)
          have hlen' : as.length = bs.length := by
            simpa using hlen
          have h1 : val as < 10 ^ as.length := val_lt_pow has
          have h2 : val bs < 10 ^ bs.length := val_lt_pow hbs
          rw [val_cons, val_cons, hlen'] at hval
          have hP : (0 : Nat) < 10 ^ bs.length := Nat.pos_pow_of_pos _ (by omega)
          rw [hlen'] at h1
          have hab : a = b := by
            rcases Nat.lt_trichotomy a b with h | h | h
            · exfalso
              have : (a + 1) * 10 ^ bs.length ≤ b * 10 ^ bs.length :=
                Nat.mul_le_mul_right _ (by omega)
              nlinarith
            · exact h
            · exfalso
              have : (b + 1) * 10 ^ bs.length ≤ a * 10 ^ bs.length :=
                Nat.mul_le_mul_right _ (by omega)
              nlinarith
          subst hab
          have hvv : val as = val bs := by omega
          rw [ih has hbs hlen' hvv]

theorem canonical_inj {x y : List Nat} (hx : canonical x) (hy : canonical y)
    (h : val x = val y) : x = y := by
  obtain ⟨⟨hxe, hxh⟩, hxd⟩ := hx
  obtain ⟨⟨hye, hyh⟩, hyd⟩ := hy
  have hlen : x.length = y.length := by
    by_contra hne
    have hx1 : 1 ≤ x.length := by
      cases x with
      | nil => exact absurd rfl hxe
      | cons => simp
    have hy1 : 1 ≤ y.length := by
      cases y with
      | nil => exact absurd rfl hye
      | cons => simp
    rcases Nat.lt_or_ge x.length y.length with hlt | hge
    · have hyh' : y.headD 0 ≠ 0 := by
        rcases hyh with h1 | h1
        · omega
        · exact h1
      have := val_lt_pow hxd
      have := pow_le_val hye hyh'
      have hle : 10 ^ x.length ≤ 10 ^ (y.length - 1) :=
        Nat.pow_le_pow_right (by omega) (by omega)
      omega
    · have hlt : y.length < x.length := by omega
      have hxh' : x.headD 0 ≠ 0 := by
        rcases hxh with h1 | h1
        · omega
        · exact h1
      have := val_lt_pow hyd
      have := pow_le_val hxe hxh'
      have hle : 10 ^ y.length ≤ 10 ^ (x.length - 1) :=
        Nat.pow_le_pow_right (by omega) (by omega)
      omega
  exact val_inj_of_length_eq hxd hyd hlen h

theorem remove_excess_val : ∀ l : List Nat, val (remove_excess l) = val l := by
  intro l
  induction l with
  | nil => rfl
  | cons d ds ih =>
      by_cases h : d = 0 ∧ ds ≠ []
      · rw [remove_excess, if_pos h, ih, val_cons, h.1]
        simp
      · rw [remove_excess, if_neg h]

theorem remove_excess_shapeOk : ∀ l : List Nat, l ≠ [] → shapeOk (remove_excess l) := by
  intro l
  induction l with
  | nil => intro h; exact absurd rfl h
  | cons d ds ih =>
      intro _
      by_cases h : d = 0 ∧ ds ≠ []
      · rw [remove_excess, if_pos h]
        exact ih h.2
      · rw [remove_excess, if_neg h]
        constructor
        · simp
        · push_neg at h
          by_cases hd : d = 0
          · left
            have := h hd
            simp [this]
          · right
            simpa using hd

theorem remove_excess_digitsOk : ∀ l : List Nat, digitsOk l → digitsOk (remove_excess l) := by
  intro l
  induction l with
  | nil => intro h; exact h
  | cons d ds ih =>
      intro h
      by_cases hc : d = 0 ∧ ds ≠ []
      · rw [remove_excess, if_pos hc]
        exact ih fun x hx => h x (List.mem_cons_of_mem d hx)
      · rw [remove_excess, if_neg hc]
        exact h

theorem remove_excess_canonical {l : List Nat} (hne : l ≠ []) (hd : digitsOk l) :
    canonical (remove_excess l) :=
  ⟨remove_excess_shapeOk l hne, remove_excess_digitsOk l hd⟩

theorem digitsOk_reverse {l : List Nat} (h : digitsOk l) : digitsOk l.reverse :=
  fun d hd => h d (List.mem_reverse.mp hd)

theorem digitsOk_cons_iff {d : Nat} {l : List Nat} :
    digitsOk (d :: l) ↔ d < 10 ∧ digitsOk l := by
  constructor
  · intro h
    exact ⟨h d (List.mem_cons_self d l), fun x hx => h x (List.mem_cons_of_mem d hx)⟩
  · rintro ⟨h1, h2⟩ x hx
    rcases List.mem_cons.mp hx with h | h
    · omega
    · exact h2 x h

theorem lexLt_iff_val : ∀ {x y : List Nat}, digitsOk x → digitsOk y →
    x.length = y.length → (lexLt x y = true ↔ val x < val y)
  | [], [], _, _, _ => by simp [lexLt, val_nil]
  | [], _ :: _, _, _, hlen => by simp at hlen
  | _ :: _, [], _, _, hlen => by simp at hlen
  | a :: as, b :: bs, hx, hy, hlen => by
      obtain ⟨ha, has⟩ := digitsOk_cons_iff.mp hx
      obtain ⟨hb, hbs⟩ := digitsOk_cons_iff.mp hy
      have hlen' : as.length = bs.length := by simpa using hlen
      have h1 : val as < 10 ^ as.length := val_lt_pow has
      have h2 : val bs < 10 ^ bs.length := val_lt_pow hbs
      rw [hlen'] at h1
      rw [val_cons, val_cons, hlen']
      rw [lexLt]
      by_cases hab : a < b
      · rw [if_pos hab]
        have hv : a * 10 ^ bs.length + val as < b * 10 ^ bs.length + val bs := by
          have h3 : (a + 1) * 10 ^ bs.length ≤ b * 10 ^ bs.length :=
            Nat.mul_le_mul_right _ (by omega)
          nlinarith
        exact iff_of_true rfl hv
      · rw [if_neg hab]
        by_cases hba : b < a
        · rw [if_pos hba]
          have hv : b * 10 ^ bs.length + val bs < a * 10 ^ bs.length + val as := by
            have h3 : (b + 1) * 10 ^ bs.length ≤ a * 10 ^ bs.length :=
              Nat.mul_le_mul_right _ (by omega)
            nlinarith
          exact iff_of_false (by simp) (by omega)
        · rw [if_neg hba]
          have hab' : a = b := by omega
          subst hab'
          rw [lexLt_iff_val has hbs hlen']
          omega

theorem blt_iff_val {x y : List Nat} (hx : canonical x) (hy : canonical y) :
    blt x y = true ↔ val x < val y := by
  obtain ⟨⟨hxe, hxh⟩, hxd⟩ := hx
  obtain ⟨⟨hye, hyh⟩, hyd⟩ := hy
  by_cases hlen : x.length = y.length
  · rw [blt, if_pos hlen]
    exact lexLt_iff_val hxd hyd hlen
  · rw [blt, if_neg hlen]
    have hx1 : 1 ≤ x.length := by
      cases x with
      | nil => exact absurd rfl hxe
      | cons => simp
    have hy1 : 1 ≤ y.length := by
      cases y with
      | nil => exact absurd rfl hye
      | cons => simp
    rcases Nat.lt_or_ge x.length y.length with hlt | hge
    · have hyh' : y.headD 0 ≠ 0 := by
        rcases hyh with h1 | h1
        · omega
        · exact h1
      have hb1 := val_lt_pow hxd
      have hb2 := pow_le_val hye hyh'
      have hle : 10 ^ x.length ≤ 10 ^ (y.length - 1) :=
        Nat.pow_le_pow_right (by omega) (by omega)
      exact iff_of_true (decide_eq_true hlt) (by omega)
    · have hltx : y.length < x.length := by omega
      have hxh' : x.headD 0 ≠ 0 := by
        rcases hxh with h1 | h1
        · omega
        · exact h1
      have hb1 := val_lt_pow hyd
      have hb2 := pow_le_val hxe hxh'
      have hle : 10 ^ y.length ≤ 10 ^ (x.length - 1) :=
        Nat.pow_le_pow_right (by omega) (by omega)
      refine iff_of_false ?_ (by omega)
      simp only [decide_eq_true_eq]
      omega

theorem blt_iff_val' {x y : List Nat} (hx : x = [] ∨ canonical x)
    (hy : canonical y) (hypos : 0 < val y) : blt x y = true ↔ val x < val y := by
  rcases hx with h | h
  · subst h
    have hye : y ≠ [] := hy.1.1
    have : y.length ≠ 0 := by
      cases y with
      | nil => exact absurd rfl hye
      | cons => simp
    rw [blt]
    simp only [List.length_nil]
    rw [if_neg (by omega)]
    simp only [decide_eq_true_eq, val_nil]
    omega
  · exact blt_iff_val h hy

theorem subLSDNil_spec : ∀ (y : List Nat) (c : Nat), digitsOk y → c ≤ 1 →
    (subLSDNil y c).1.length = y.length ∧
    digitsOk (subLSDNil y c).1 ∧ (subLSDNil y c).2 ≤ 1 ∧
    valL (subLSDNil y c).1 + valL y + c = (subLSDNil y c).2 * 10 ^ y.length
  | [], c, _, hc => by
      refine ⟨rfl, ?_, hc, by simp [subLSDNil, valL]⟩
      intro d hd
      simp [subLSDNil] at hd
  | y :: ys, c, hy, hc => by
      obtain ⟨hyd, hys⟩ := digitsOk_cons_iff.mp hy
      by_cases hlt : 0 < y + c
      · obtain ⟨ih1, ih2, ih3, ih4⟩ := subLSDNil_spec ys 1 hys (by omega)
        simp only [subLSDNil, subDigit, if_pos hlt]
        refine ⟨by simpa using ih1, ?_, ih3, ?_⟩
        · rw [digitsOk_cons_iff]
          exact ⟨by omega, ih2⟩
        · simp only [valL, List.length_cons]
          rw [pow_succ]
          generalize hP : (10 : Nat) ^ ys.length = P at ih4 ⊢
          rcases Nat.le_one_iff_eq_zero_or_eq_one.mp ih3 with h | h <;>
            rw [h] at ih4 ⊢ <;> omega
      · have hy0 : y = 0 := by omega
        have hc0 : c = 0 := by omega
        subst hy0; subst hc0
        obtain ⟨ih1, ih2, ih3, ih4⟩ := subLSDNil_spec ys 0 hys (by omega)
        simp only [subLSDNil, subDigit, if_neg hlt]
        refine ⟨by simpa using ih1, ?_, ih3, ?_⟩
        · rw [digitsOk_cons_iff]
          exact ⟨by omega, ih2⟩
        · simp only [valL, List.length_cons]
          rw [pow_succ]
          generalize hP : (10 : Nat) ^ ys.length = P at ih4 ⊢
          rcases Nat.le_one_iff_eq_zero_or_eq_one.mp ih3 with h | h <;>
            rw [h] at ih4 ⊢ <;> omega

theorem subLSD_spec : ∀ (x y : List Nat) (c : Nat), digitsOk x → digitsOk y →
    c ≤ 1 →
    (subLSD x y c).1.length = max x.length y.length ∧
    digitsOk (subLSD x y c).1 ∧ (subLSD x y c).2 ≤ 1 ∧
    valL (subLSD x y c).1 + valL y + c
      = valL x + (subLSD x y c).2 * 10 ^ max x.length y.length
  | [], ys, c, hx, hy, hc => by
      obtain ⟨n1, n2, n3, n4⟩ := subLSDNil_spec ys c hy hc
      refine ⟨by simpa [subLSD, Nat.zero_max] using n1, by simpa [subLSD] using n2,
        by simpa [subLSD] using n3, ?_⟩
      simp only [subLSD, valL, List.length_nil, Nat.zero_max]
      omega
  | x :: xs, [], c, hx, hy, hc => by
      obtain ⟨hxd, hxs⟩ := digitsOk_cons_iff.mp hx
      by_cases hlt : x < c
      · obtain ⟨ih1, ih2, ih3, ih4⟩ := subLSD_spec xs [] 1 hxs hy (by omega)
        simp only [subLSD, subDigit, Nat.zero_add, if_pos hlt]
        refine ⟨by simpa using ih1, ?_, ih3, ?_⟩
        · rw [digitsOk_cons_iff]
          exact ⟨by omega, ih2⟩
        · simp only [valL, List.length_nil, Nat.max_zero, List.length_cons]
          simp only [valL, List.length_nil, Nat.max_zero] at ih4
          rw [pow_succ]
          generalize hP : (10 : Nat) ^ xs.length = P at ih4 ⊢
          rcases Nat.le_one_iff_eq_zero_or_eq_one.mp ih3 with h | h <;>
            rw [h] at ih4 ⊢ <;> omega
      · obtain ⟨ih1, ih2, ih3, ih4⟩ := subLSD_spec xs [] 0 hxs hy (by omega)
        simp only [subLSD, subDigit, Nat.zero_add, if_neg hlt]
        refine ⟨by simpa using ih1, ?_, ih3, ?_⟩
        · rw [digitsOk_cons_iff]
          exact ⟨by omega, ih2⟩
        · simp only [valL, List.length_nil, Nat.max_zero, List.length_cons]
          simp only [valL, List.length_nil, Nat.max_zero] at ih4
          rw [pow_succ]
          generalize hP : (10 : Nat) ^ xs.length = P at ih4 ⊢
          rcases Nat.le_one_iff_eq_zero_or_eq_one.mp ih3 with h | h <;>
            rw [h] at ih4 ⊢ <;> omega
  | x :: xs, y :: ys, c, hx, hy, hc => by
      obtain ⟨hxd, hxs⟩ := digitsOk_cons_iff.mp hx
      obtain ⟨hyd, hys⟩ := digitsOk_cons_iff.mp hy
      by_cases hlt : x < y + c
      · obtain ⟨ih1, ih2, ih3, ih4⟩ := subLSD_spec xs ys 1 hxs hys (by omega)
        simp only [subLSD, subDigit, if_pos hlt]
        refine ⟨by simpa [Nat.succ_max_succ] using ih1, ?_, ih3, ?_⟩
        · rw [digitsOk_cons_iff]
          exact ⟨by omega, ih2⟩
        · simp only [valL, List.length_cons, Nat.succ_max_succ]
          rw [pow_succ]
          generalize hP : (10 : Nat) ^ max xs.length ys.length = P at ih4 ⊢
          rcases Nat.le_one_iff_eq_zero_or_eq_one.mp ih3 with h | h <;>
            rw [h] at ih4 ⊢ <;> omega
      · obtain ⟨ih1, ih2, ih3, ih4⟩ := subLSD_spec xs ys 0 hxs hys (by omega)
        simp only [subLSD, subDigit, if_neg hlt]
        refine ⟨by simpa [Nat.succ_max_succ] using ih1, ?_, ih3, ?_⟩
        · rw [digitsOk_cons_iff]
          exact ⟨by omega, ih2⟩
        · simp only [valL, List.length_cons, Nat.succ_max_succ]
          rw [pow_succ]
          generalize hP : (10 : Nat) ^ max xs.length ys.length = P at ih4 ⊢
          rcases Nat.le_one_iff_eq_zero_or_eq_one.mp ih3 with h | h <;>
            rw [h] at ih4 ⊢ <;> omega

theorem bsub_spec {a b : List Nat} (ha : digitsOk a) (hb : digitsOk b)
    (hle : val b ≤ val a) :
    val (bsub a b) = val a - val b ∧ digitsOk (bsub a b) ∧
      (a ≠ [] → canonical (bsub a b)) := by
  obtain ⟨h1, h2, h3, h4⟩ :=
    subLSD_spec a.reverse b.reverse 0 (digitsOk_reverse ha) (digitsOk_reverse hb)
      (by omega)
  have hvx : valL a.reverse = val a := rfl
  have hvy : valL b.reverse = val b := rfl
  have hvs : valL (subLSD a.reverse b.reverse 0).1
      = val (subLSD a.reverse b.reverse 0).1.reverse := by
    simp [val, List.reverse_reverse]
  simp only [List.length_reverse] at h1 h4
  rw [hvx, hvy, hvs] at h4
  have hdig : digitsOk (subLSD a.reverse b.reverse 0).1.reverse := digitsOk_reverse h2
  have hbound : val (subLSD a.reverse b.reverse 0).1.reverse
      < 10 ^ max a.length b.length := by
    have hb2 := val_lt_pow hdig
    rwa [List.length_reverse, h1] at hb2
  have hzero : (subLSD a.reverse b.reverse 0).2 = 0 := by
    rcases Nat.le_one_iff_eq_zero_or_eq_one.mp h3 with h | h
    · exact h
    · rw [h] at h4
      omega
  rw [hzero] at h4
  have hval : val (bsub a b) = val a - val b := by
    rw [bsub, remove_excess_val]
    omega
  refine ⟨hval, remove_excess_digitsOk _ hdig, fun hne => ?_⟩
  have hlena : 1 ≤ a.length := by
    cases a with
    | nil => exact absurd rfl hne
    | cons => simp
  have hrne : (subLSD a.reverse b.reverse 0).1.reverse ≠ [] := by
    intro hcon
    have hl := congrArg List.length hcon
    rw [List.length_reverse, h1] at hl
    simp only [List.length_nil] at hl
    omega
  exact remove_excess_canonical hrne hdig

theorem getD_set_self : ∀ (l : List Nat) (p d : Nat), p < l.length →
    (l.set p d).getD p 0 = d
  | [], p, d => by simp
  | x :: xs, 0, d => by simp
  | x :: xs, p + 1, d => by
      intro h
      simp only [List.set_cons_succ, List.getD_cons_succ]
      exact getD_set_self xs p d (by simpa using h)

theorem getD_set_ne : ∀ (l : List Nat) (p q d : Nat), p ≠ q →
    (l.set p d).getD q 0 = l.getD q 0
  | [], p, q, d, _ => by simp
  | x :: xs, 0, 0, d, h => by omega
  | x :: xs, 0, q + 1, d, h => by simp
  | x :: xs, p + 1, 0, d, h => by simp
  | x :: xs, p + 1, q + 1, d, h => by
      simp only [List.set_cons_succ, List.getD_cons_succ]
      exact getD_set_ne xs p q d (by omega)

theorem digitsOk_getD {l : List Nat} (h : digitsOk l) (p : Nat) : l.getD p 0 < 10 := by
  induction l generalizing p with
  | nil => simp [List.getD]
  | cons x xs ih =>
      obtain ⟨h1, h2⟩ := digitsOk_cons_iff.mp h
      cases p with
      | zero => simpa using h1
      | succ q => simpa using ih h2 q

theorem digitsOk_set {l : List Nat} {d : Nat} (h : digitsOk l) (hd : d < 10)
    (p : Nat) : digitsOk (l.set p d) := by
  intro x hx
  rcases List.mem_or_eq_of_mem_set hx with h1 | h1
  · exact h x h1
  · omega

theorem val_set : ∀ (l : List Nat) (p d : Nat), p < l.length →
    val (l.set p d) + l.getD p 0 * 10 ^ (l.length - 1 - p)
      = val l + d * 10 ^ (l.length - 1 - p)
  | [], p, d => by simp
  | x :: xs, 0, d => by
      intro _
      simp only [List.set_cons_zero, List.getD_cons_zero, val_cons, List.length_cons,
        Nat.add_sub_cancel, Nat.sub_zero]
      ring
  | x :: xs, p + 1, d => by
      intro h
      have ih := val_set xs p d (by simpa using h)
      simp only [List.set_cons_succ, List.getD_cons_succ, val_cons, List.length_set,
        List.length_cons]
      have he : xs.length + 1 - 1 - (p + 1) = xs.length - 1 - p := by omega
      rw [he]
      omega

theorem val_replicate_zero : ∀ n : Nat, val (List.replicate n 0) = 0
  | 0 => rfl
  | n + 1 => by
      rw [List.replicate_succ, val_cons, val_replicate_zero n]
      simp

theorem getD_replicate_zero : ∀ (n p : Nat), (List.replicate n 0).getD p 0 = 0
  | 0, p => by simp [List.getD]
  | n + 1, 0 => by simp [List.replicate_succ]
  | n + 1, p + 1 => by
      rw [List.replicate_succ]
      simp only [List.getD_cons_succ]
      exact getD_replicate_zero n p

theorem digitsOk_replicate_zero (n : Nat) : digitsOk (List.replicate n 0) := by
  intro d hd
  have := List.eq_of_mem_replicate hd
  omega

theorem val_take_succ {b : List Nat} {f : Nat} (hf : f < b.length) :
    val (b.take (f + 1)) = 10 * val (b.take f) + b.getD f 0 := by
  rw [List.take_succ]
  have hg : b[f]? = some (b.getD f 0) := by
    rw [List.getElem?_eq_getElem hf]
    simp [List.getD_eq_getElem?_getD, List.getElem?_eq_getElem hf]
  rw [hg]
  simpa using val_append_digit (b.take f) (b.getD f 0)

theorem mulInner_spec (ai : Nat) (b : List Nat) (i : Nat) (hai : ai < 10)
    (hb : digitsOk b) : ∀ (f : Nat) (prod : List Nat) (carry : Nat),
    digitsOk prod → carry < 10 → f ≤ b.length → i + f < prod.length →
    (mulInner ai b i f prod carry).1.length = prod.length ∧
    digitsOk (mulInner ai b i f prod carry).1 ∧
    (mulInner ai b i f prod carry).2 < 10 ∧
    (∀ p, p ≤ i → (mulInner ai b i f prod carry).1.getD p 0 = prod.getD p 0) ∧
    val (mulInner ai b i f prod carry).1
        + (mulInner ai b i f prod carry).2 * 10 ^ (prod.length - 1 - i)
      = val prod + carry * 10 ^ (prod.length - 1 - (i + f))
        + ai * val (b.take f) * 10 ^ (prod.length - 1 - (i + f))
  | 0, prod, carry, hp, hc, hf, hi => by
      refine ⟨rfl, hp, hc, fun p _ => rfl, ?_⟩
      simp only [mulInner, List.take_zero, val_nil, Nat.add_zero, mul_zero, zero_mul,
        Nat.add_zero]
  | f + 1, prod, carry, hp, hc, hf, hi => by
      have hg : b.getD f 0 < 10 := digitsOk_getD hb f
      have hq : prod.getD (i + f + 1) 0 < 10 := digitsOk_getD hp _
      have hcp : ai * b.getD f 0 + prod.getD (i + f + 1) 0 + carry ≤ 99 := by nlinarith
      obtain ⟨ih1, ih2, ih3, ih4, ih5⟩ :=
        mulInner_spec ai b i hai hb f
          (prod.set (i + f + 1)
            ((ai * b.getD f 0 + prod.getD (i + f + 1) 0 + carry) % 10))
          ((ai * b.getD f 0 + prod.getD (i + f + 1) 0 + carry) / 10)
          (digitsOk_set hp (by omega) _) (by omega) (by omega)
          (by rw [List.length_set]; omega)
      simp only [mulInner]
      simp only [List.length_set] at ih1 ih5
      refine ⟨ih1, ih2, ih3, ?_, ?_⟩
      · intro p hpi
        rw [ih4 p hpi, getD_set_ne _ _ _ _ (by omega)]
      · have he : i + (f + 1) = i + f + 1 := by omega
        rw [he]
        have hEx : 10 ^ (prod.length - 1 - (i + f))
            = 10 * 10 ^ (prod.length - 1 - (i + f + 1)) := by
          have h2 : prod.length - 1 - (i + f) = (prod.length - 1 - (i + f + 1)) + 1 := by
            omega
          rw [h2, pow_succ]
          ring
        have htk : val (b.take (f + 1)) = 10 * val (b.take f) + b.getD f 0 :=
          val_take_succ (by omega)
        have hvset := val_set prod (i + f + 1)
          ((ai * b.getD f 0 + prod.getD (i + f + 1) 0 + carry) % 10) (by omega)
        have hsplit := Nat.mod_add_div
          (ai * b.getD f 0 + prod.getD (i + f + 1) 0 + carry) 10
        rw [hEx] at ih5
        rw [htk]
        zify at ih5 hvset hsplit ⊢
        linear_combination ih5 + hvset
          + ((10 : ℤ) ^ (prod.length - 1 - (i + f + 1))) * hsplit

theorem mulOuter_spec (a b : List Nat) (ha : digitsOk a) (hb : digitsOk b) :
    ∀ (f : Nat) (prod : List Nat),
    digitsOk prod → f ≤ a.length → prod.length = a.length + b.length →
    (∀ p, p < f → prod.getD p 0 = 0) →
    (mulOuter a b f prod).length = prod.length ∧
    digitsOk (mulOuter a b f prod) ∧
    val (mulOuter a b f prod) = val prod + val (a.take f) * val b * 10 ^ (a.length - f)
  | 0, prod, hp, hf, hL, hz => by
      refine ⟨rfl, hp, ?_⟩
      simp only [mulOuter, List.take_zero, val_nil, zero_mul, Nat.zero_mul, Nat.add_zero]
  | f + 1, prod, hp, hf, hL, hz => by
      have haf : a.getD f 0 < 10 := digitsOk_getD ha f
      have htk : val (a.take (f + 1)) = 10 * val (a.take f) + a.getD f 0 :=
        val_take_succ (by omega)
      have hEx : 10 ^ (a.length - f) = 10 * 10 ^ (a.length - (f + 1)) := by
        have h2 : a.length - f = (a.length - (f + 1)) + 1 := by omega
        rw [h2, pow_succ]
        ring
      by_cases h0 : a.getD f 0 = 0
      · rw [mulOuter, if_pos h0]
        obtain ⟨ih1, ih2, ih3⟩ := mulOuter_spec a b ha hb f prod hp (by omega) hL
          (fun p hp' => hz p (by omega))
        refine ⟨ih1, ih2, ?_⟩
        rw [ih3, htk, h0, hEx]
        ring
      · obtain ⟨j1, j2, j3, j4, j5⟩ :=
          mulInner_spec (a.getD f 0) b f haf hb b.length prod 0 hp (by omega) le_rfl
            (by omega)
        have hRf : (mulInner (a.getD f 0) b f b.length prod 0).1.getD f 0 = 0 :=
          (j4 f le_rfl).trans (hz f (by omega))
        rw [mulOuter, if_neg h0, hRf, Nat.zero_add]
        obtain ⟨k1, k2, k3⟩ := mulOuter_spec a b ha hb f
          ((mulInner (a.getD f 0) b f b.length prod 0).1.set f
            (mulInner (a.getD f 0) b f b.length prod 0).2)
          (digitsOk_set j2 j3 f) (by omega) (by rw [List.length_set, j1]; exact hL)
          (fun p hp' => by
            rw [getD_set_ne _ _ _ _ (by omega), j4 p (by omega)]
            exact hz p (by omega))
        refine ⟨by rw [k1, List.length_set, j1], k2, ?_⟩
        have hvset := val_set (mulInner (a.getD f 0) b f b.length prod 0).1 f
          (mulInner (a.getD f 0) b f b.length prod 0).2 (by omega)
        rw [hRf, j1] at hvset
        simp only [List.take_length, Nat.zero_mul, Nat.zero_add] at j5
        have hex2 : prod.length - 1 - (f + b.length) = a.length - (f + 1) := by omega
        rw [hex2] at j5
        rw [k3, htk, hEx]
        zify at j5 hvset ⊢
        linear_combination j5 + hvset

theorem bmul_spec {a b : List Nat} (ha : digitsOk a) (hb : digitsOk b) :
    val (bmul a b) = val a * val b ∧ digitsOk (bmul a b) ∧
      (a ≠ [] → canonical (bmul a b)) := by
  obtain ⟨m1, m2, m3⟩ := mulOuter_spec a b ha hb a.length
    (List.replicate (a.length + b.length) 0) (digitsOk_replicate_zero _) le_rfl
    (by rw [List.length_replicate]) (fun p _ => getD_replicate_zero _ p)
  have hval : val (bmul a b) = val a * val b := by
    rw [bmul, remove_excess_val, m3, val_replicate_zero, List.take_length]
    simp
  refine ⟨hval, remove_excess_digitsOk _ m2, fun hne => ?_⟩
  have hlena : 1 ≤ a.length := by
    cases a with
    | nil => exact absurd rfl hne
    | cons => simp
  have hrne : mulOuter a b a.length (List.replicate (a.length + b.length) 0) ≠ [] := by
    intro hcon
    have hl := congrArg List.length hcon
    rw [m1, List.length_replicate] at hl
    simp only [List.length_nil] at hl
    omega
  exact remove_excess_canonical hrne m2

theorem stripZeros_val : ∀ l : List Nat, val (stripZeros l) = val l := by
  intro l
  induction l with
  | nil => rfl
  | cons d ds ih =>
      by_cases h : d = 0
      · subst h
        rw [stripZeros, List.dropWhile_cons]
        simp only [beq_self_eq_true, if_true]
        rw [val_cons]
        simpa using ih
      · rw [stripZeros, List.dropWhile_cons]
        simp [h]

theorem stripZeros_digitsOk {l : List Nat} (h : digitsOk l) :
    digitsOk (stripZeros l) := by
  intro d hd
  exact h d ((List.dropWhile_sublist _).subset hd)

theorem stripZeros_cOrE {l : List Nat} (h : digitsOk l) :
    stripZeros l = [] ∨ canonical (stripZeros l) := by
  induction l with
  | nil => left; rfl
  | cons d ds ih =>
      by_cases h0 : d = 0
      · subst h0
        rw [stripZeros, List.dropWhile_cons]
        simp only [beq_self_eq_true, if_true]
        exact ih fun x hx => h x (List.mem_cons_of_mem 0 hx)
      · rw [stripZeros, List.dropWhile_cons]
        have hb : (d == 0) = false := by simp [h0]
        rw [hb]
        simp only [Bool.false_eq_true, if_false]
        right
        refine ⟨⟨by simp, Or.inr (by simpa using h0)⟩, h⟩

theorem divStep_spec (other : List Nat) (hob : canonical other)
    (hopos : 0 < val other) :
    ∀ (fuel : Nat) (rem : List Nat), (rem = [] ∨ canonical rem) → digitsOk rem →
    val rem / val other < fuel →
    ∃ rem2 q, divStep other rem fuel = some (rem2, q) ∧
      q = val rem / val other ∧ val rem2 = val rem % val other ∧
      (rem2 = [] ∨ canonical rem2) ∧ digitsOk rem2
  | 0, rem, _, _, hfuel => absurd hfuel (Nat.not_lt_zero _)
  | fuel + 1, rem, hc, hd, hfuel => by
      by_cases hblt : blt rem other = true
      · have hlt : val rem < val other := (blt_iff_val' hc hob hopos).mp hblt
        refine ⟨rem, 0, ?_, ?_, ?_, hc, hd⟩
        · rw [divStep, if_pos hblt]
        · rw [Nat.div_eq_of_lt hlt]
        · rw [Nat.mod_eq_of_lt hlt]
      · have hge : val other ≤ val rem := by
          have := (blt_iff_val' hc hob hopos).not.mp (by simpa using hblt)
          omega
        have hrne : rem ≠ [] := by
          intro hcon
          subst hcon
          rw [val_nil] at hge
          omega
        obtain ⟨hv, hd2, hcan⟩ := bsub_spec hd hob.2 hge
        have hstep : val rem / val other = (val rem - val other) / val other + 1 :=
          Nat.div_eq_sub_div hopos hge
        have hnext : val (bsub rem other) / val other < fuel := by
          rw [hv]
          omega
        obtain ⟨rem2, q, heq, hq, hm, hc2, hd3⟩ :=
          divStep_spec other hob hopos fuel (bsub rem other)
            (Or.inr (hcan hrne)) hd2 hnext
        refine ⟨rem2, q + 1, ?_, ?_, ?_, hc2, hd3⟩
        · rw [divStep, if_neg (by simpa using hblt), heq]
        · rw [hq, hv, Nat.div_eq_sub_div hopos hge]
        · rw [hm, hv, Nat.mod_eq_sub_mod hge]

theorem divLoop_spec (other : List Nat) (hob : canonical other)
    (hopos : 0 < val other) :
    ∀ (ds quo rem : List Nat) (fuel : Nat),
    digitsOk ds → (rem = [] ∨ canonical rem) → digitsOk rem →
    val rem < val other → 10 ≤ fuel →
    ∃ qs rem2, divLoop other ds quo rem fuel = some (quo ++ qs, rem2) ∧
      qs.length = ds.length ∧ digitsOk qs ∧
      (rem2 = [] ∨ canonical rem2) ∧ digitsOk rem2 ∧ val rem2 < val other ∧
      val rem * 10 ^ ds.length + val ds = val qs * val other + val rem2
  | [], quo, rem, fuel, _, hc, hd, hlt, _ => by
      refine ⟨[], rem, by simp [divLoop], rfl, ?_, hc, hd, hlt, ?_⟩
      · intro x hx
        simp at hx
      · simp [val_nil]
  | d :: ds, quo, rem, fuel, hds, hc, hd, hlt, hfuel => by
      obtain ⟨hdd, hds'⟩ := digitsOk_cons_iff.mp hds
      have hd1 : digitsOk (rem ++ [d]) := by
        intro x hx
        rcases List.mem_append.mp hx with h | h
        · exact hd x h
        · simp at h
          omega
      have hrv : val (stripZeros (rem ++ [d])) = 10 * val rem + d := by
        rw [stripZeros_val, val_append_digit]
      have hrc := stripZeros_cOrE hd1
      have hrd := stripZeros_digitsOk hd1
      have hqlt : val (stripZeros (rem ++ [d])) / val other < 10 := by
        rw [Nat.div_lt_iff_lt_mul hopos, hrv]
        omega
      obtain ⟨rem2, q, hstep, hq, hm, hc2, hd2⟩ :=
        divStep_spec other hob hopos fuel (stripZeros (rem ++ [d])) hrc hrd
          (by omega)
      obtain ⟨qs, rem3, hloop, hlen, hqsd, hc3, hd3, hlt3, heq⟩ :=
        divLoop_spec other hob hopos ds (quo ++ [q]) rem2 fuel hds' hc2 hd2
          (by rw [hm]; exact Nat.mod_lt _ hopos) hfuel
      have hkey : q * val other + val rem2 = 10 * val rem + d := by
        have hdm := Nat.div_add_mod' (val (stripZeros (rem ++ [d]))) (val other)
        rw [hq, hm, ← hrv]
        exact hdm
      refine ⟨q :: qs, rem3, ?_, by simpa using hlen, ?_, hc3, hd3, hlt3, ?_⟩
      · rw [divLoop, hstep]
        show divLoop other ds (quo ++ [q]) rem2 fuel = _
        rw [hloop, List.append_assoc, List.singleton_append]
      · rw [digitsOk_cons_iff]
        exact ⟨by omega, hqsd⟩
      · rw [List.length_cons, pow_succ, val_cons, val_cons, hlen]
        zify at hkey heq ⊢
        linear_combination heq - ((10 : ℤ) ^ ds.length) * hkey

theorem bdiv_spec {a b : List Nat} (ha : digitsOk a) (hb : canonical b)
    (hpos : 0 < val b) :
    val (bdiv a b) = val a / val b ∧ canonical (bdiv a b) := by
  obtain ⟨qs, rem2, hloop, hlen, hqs, hc2, hd2, hlt2, heq⟩ :=
    divLoop_spec b hb hpos a [0] [] (val a + 10) ha (Or.inl rfl)
      (by intro x hx; simp at hx) (by rw [val_nil]; exact hpos) (by omega)
  rw [val_nil, Nat.zero_mul, Nat.zero_add] at heq
  have hq1 : val qs = val a / val b := by
    have h2 : val a / val b = val qs ∧ val a % val b = val rem2 :=
      (Nat.div_mod_unique hpos).mpr
        (And.intro (by rw [Nat.mul_comm (val b) (val qs)]; omega) hlt2)
    exact h2.1.symm
  have hbdiv : bdiv a b = remove_excess ([0] ++ qs) := by
    rw [bdiv, bdivF, hloop]
  have hdig : digitsOk ([0] ++ qs) := by
    intro x hx
    rcases List.mem_append.mp hx with h | h
    · simp at h
      omega
    · exact hqs x h
  constructor
  · rw [hbdiv, remove_excess_val, List.singleton_append, val_cons]
    simp only [Nat.zero_mul, Nat.zero_add]
    exact hq1
  · rw [hbdiv]
    exact remove_excess_canonical (by simp) hdig

theorem bmod_spec {a b : List Nat} (ha : digitsOk a) (hane : a ≠ [])
    (hb : canonical b) (hpos : 0 < val b) :
    val (bmod a b) = val a % val b ∧ canonical (bmod a b) := by
  obtain ⟨hdv, hdc⟩ := bdiv_spec ha hb hpos
  obtain ⟨hmv, hmd, _⟩ := bmul_spec hdc.2 hb.2
  have hle : val (bmul (bdiv a b) b) ≤ val a := by
    rw [hmv, hdv]
    exact Nat.div_mul_le_self _ _
  obtain ⟨hsv, hsd, hsc⟩ := bsub_spec ha hmd hle
  have hval : val (bmod a b) = val a % val b := by
    rw [bmod, hsv, hmv, hdv]
    have := Nat.div_add_mod' (val a) (val b)
    omega
  exact ⟨hval, hsc hane⟩

theorem blt_zero_false : ∀ {rem : List Nat}, rem ≠ [] → blt rem [0] = false := by
  intro rem hne
  cases rem with
  | nil => exact absurd rfl hne
  | cons x xs =>
      cases xs with
      | nil =>
          have h : blt [x] [0] = lexLt [x] [0] := by
            rw [blt]
            simp
          rw [h, lexLt]
          rw [if_neg (Nat.not_lt_zero x)]
          by_cases h1 : 0 < x
          · rw [if_pos h1]
          · rw [if_neg h1, lexLt]
      | cons y ys =>
          rw [blt, if_neg (by simp)]
          simp

theorem divStep_zero_none : ∀ (fuel : Nat) {rem : List Nat}, rem ≠ [] →
    digitsOk rem → divStep [0] rem fuel = none
  | 0, rem, _, _ => rfl
  | fuel + 1, rem, hne, hd => by
      rw [divStep, if_neg (by rw [blt_zero_false hne]; simp)]
      have hz : digitsOk [0] := by
        intro x hx
        simp at hx
        omega
      have hle : val [0] ≤ val rem := by
        have h0 : val [0] = 0 := rfl
        omega
      obtain ⟨hv, hd2, hc⟩ := bsub_spec hd hz hle
      have hne2 : bsub rem [0] ≠ [] := (hc hne).1.1
      rw [divStep_zero_none fuel hne2 hd2]

theorem bdivF_one_zero_none (fuel : Nat) : bdivF [1] [0] fuel = none := by
  have hone : digitsOk [1] := by
    intro x hx
    simp at hx
    omega
  have hs : stripZeros (([] : List Nat) ++ [1]) = [1] := rfl
  rw [bdivF, divLoop, hs, divStep_zero_none fuel (by simp) hone]

theorem canonical_zero : canonical [0] := by
  refine ⟨⟨by simp, Or.inl rfl⟩, ?_⟩
  intro d hd
  simp at hd
  omega

theorem canonical_val_zero {e : List Nat} (he : canonical e) (hv : val e = 0) :
    e = [0] :=
  canonical_inj he canonical_zero (by rw [hv]; rfl)

theorem canonical_two : canonical [2] := by
  refine ⟨⟨by simp, Or.inl rfl⟩, ?_⟩
  intro d hd
  simp at hd
  omega

theorem val_two : val [2] = 2 := rfl

theorem bodd_iff {e : List Nat} (hne : e ≠ []) :
    bodd e = true ↔ val e % 2 = 1 := by
  rcases List.eq_nil_or_concat e with h | ⟨l, d, h⟩
  · exact absurd h hne
  · subst h
    rw [bodd, List.concat_eq_append, List.getLastD_concat, val_append_digit]
    constructor
    · intro hb
      have : d % 2 ≠ 0 := by simpa using hb
      omega
    · intro hv
      have : d % 2 ≠ 0 := by omega
      simpa using this

theorem modExpLoop_isSome (m : List Nat) : ∀ (fuel : Nat) (mexp base e : List Nat),
    canonical e → val e < fuel → (modExpLoop m fuel mexp base e).isSome = true
  | 0, mexp, base, e, he, hfuel => absurd hfuel (Nat.not_lt_zero _)
  | fuel + 1, mexp, base, e, he, hfuel => by
      by_cases h0 : e = [0]
      · rw [modExpLoop, if_pos h0]
        rfl
      · rw [modExpLoop, if_neg h0]
        have hpos : 0 < val e := by
          rcases Nat.eq_zero_or_pos (val e) with h | h
          · exact absurd (canonical_val_zero he h) h0
          · exact h
        obtain ⟨hqv, hqc⟩ := bdiv_spec he.2 canonical_two (by rw [val_two]; omega)
        have hlt : val (bdiv e [2]) < fuel := by
          rw [hqv, val_two]
          omega
        exact modExpLoop_isSome m fuel _ _ _ hqc hlt

theorem modExpLoop_val (m : List Nat) (hm : canonical m) (hmpos : 0 < val m) :
    ∀ (fuel : Nat) (mexp base e : List Nat),
    canonical e → val e < fuel → digitsOk mexp → mexp ≠ [] →
    digitsOk base → base ≠ [] →
    ∃ r, modExpLoop m fuel mexp base e = some r ∧
      ((e = [0] ∧ r = mexp) ∨
       (0 < val e ∧ val r = (val mexp * val base ^ val e) % val m ∧ canonical r))
  | 0, mexp, base, e, he, hfuel, _, _, _, _ => absurd hfuel (Nat.not_lt_zero _)
  | fuel + 1, mexp, base, e, he, hfuel, hxd, hxne, hbd, hbne => by
      by_cases h0 : e = [0]
      · exact ⟨mexp, by rw [modExpLoop, if_pos h0], Or.inl ⟨h0, rfl⟩⟩
      · have hpos : 0 < val e := by
          rcases Nat.eq_zero_or_pos (val e) with h | h
          · exact absurd (canonical_val_zero he h) h0
          · exact h
        obtain ⟨hqv, hqc⟩ := bdiv_spec he.2 canonical_two (by rw [val_two]; omega)
        rw [val_two] at hqv
        have hlt : val (bdiv e [2]) < fuel := by
          rw [hqv]
          omega
        obtain ⟨hmulv, hmuld, hmulc⟩ := bmul_spec hxd hbd
        obtain ⟨hm1v, hm1c⟩ := bmod_spec hmuld ((hmulc hxne).1.1) hm hmpos
        obtain ⟨hsqv, hsqd, hsqc⟩ := bmul_spec hbd hbd
        obtain ⟨hb1v, hb1c⟩ := bmod_spec hsqd ((hsqc hbne).1.1) hm hmpos
        have hxd' : digitsOk (if bodd e then bmod (bmul mexp base) m else mexp) := by
          by_cases hb : bodd e
          · rw [if_pos hb]
            exact hm1c.2
          · rw [if_neg hb]
            exact hxd
        have hxne' : (if bodd e then bmod (bmul mexp base) m else mexp) ≠ [] := by
          by_cases hb : bodd e
          · rw [if_pos hb]
            exact hm1c.1.1
          · rw [if_neg hb]
            exact hxne
        obtain ⟨r, hr, hcase⟩ := modExpLoop_val m hm hmpos fuel
          (if bodd e then bmod (bmul mexp base) m else mexp)
          (bmod (bmul base base) m) (bdiv e [2]) hqc hlt hxd' hxne' hb1c.2 hb1c.1.1
        refine ⟨r, by rw [modExpLoop, if_neg h0]; exact hr, Or.inr ⟨hpos, ?_, ?_⟩⟩
        · have hmexp' : val (if bodd e then bmod (bmul mexp base) m else mexp)
              ≡ val mexp * val base ^ (val e % 2) [MOD val m] := by
            by_cases hb : bodd e
            · rw [if_pos hb, hm1v, hmulv, (bodd_iff he.1.1).mp hb, pow_one]
              exact Nat.mod_modEq _ _
            · have hev : val e % 2 = 0 := by
                have := (bodd_iff he.1.1).not.mp (by simpa using hb)
                omega
              rw [if_neg hb, hev, pow_zero, Nat.mul_one]
          have hbase' : val (bmod (bmul base base) m)
              ≡ val base ^ 2 [MOD val m] := by
            rw [hb1v, hsqv, Nat.pow_two]
            exact Nat.mod_modEq _ _
          rcases hcase with ⟨hez, hrm⟩ | ⟨hq1, hrv, hrc⟩
          · -- the halved exponent is already [0], so val e = 1 and e was odd
            have hez' : val e = 1 := by
              have : val e / 2 = 0 := by
                rw [← hqv, hez]
                rfl
              omega
            have hb : bodd e = true := (bodd_iff he.1.1).mpr (by omega)
            rw [hrm, if_pos hb, hm1v, hmulv, hez', pow_one]
          · -- combine the two congruences
            have hcomb : val (if bodd e then bmod (bmul mexp base) m else mexp)
                * val (bmod (bmul base base) m) ^ (val e / 2)
                ≡ val mexp * val base ^ val e [MOD val m] := by
              have h2 := (hbase'.pow (val e / 2))
              have h3 := hmexp'.mul h2
              have h4 : (val base ^ 2) ^ (val e / 2) = val base ^ (2 * (val e / 2)) := by
                rw [← pow_mul]
              rw [h4] at h3
              have h5 : val mexp * val base ^ (val e % 2)
                  * val base ^ (2 * (val e / 2))
                  = val mexp * val base ^ val e := by
                rw [Nat.mul_assoc, ← pow_add]
                congr 1
                congr 1
                omega
              rwa [h5] at h3
            rw [hrv, hqv]
            exact hcomb
        · rcases hcase with ⟨hez, hrm⟩ | ⟨_, _, hrc⟩
          · rw [hrm]
            have hb : bodd e = true := by
              have hez' : val e = 1 := by
                have : val e / 2 = 0 := by
                  rw [← hqv, hez]
                  rfl
                omega
              exact (bodd_iff he.1.1).mpr (by omega)
            rw [if_pos hb]
            exact hm1c
          · exact hrc

theorem mod_exponent_val {base e m : List Nat} (hb : digitsOk base)
    (hbne : base ≠ []) (he : canonical e) (hm : canonical m) (hmpos : 0 < val m)
    (hnt : 2 ≤ val m ∨ 1 ≤ val e) :
    val (mod_exponent base e m) = val base ^ val e % val m ∧
      canonical (mod_exponent base e m) := by
  obtain ⟨hb0v, hb0c⟩ := bmod_spec hb hbne hm hmpos
  have hone : digitsOk [1] := by
    intro x hx
    simp at hx
    omega
  obtain ⟨r, hr, hcase⟩ := modExpLoop_val m hm hmpos (val e + 2) [1] (bmod base m) e
    he (by omega) hone (by simp) hb0c.2 hb0c.1.1
  rw [mod_exponent, hr]
  simp only [Option.getD_some]
  rcases hcase with ⟨hez, hrm⟩ | ⟨hpos, hrv, hrc⟩
  · subst hrm
    have hez2 : val e = 0 := by
      rw [hez]
      rfl
    have hm2 : 2 ≤ val m := by
      rcases hnt with h | h
      · exact h
      · omega
    have hre : remove_excess [1] = [1] := rfl
    rw [hez2, hre]
    constructor
    · have h1 : val ([1] : List Nat) = 1 := rfl
      rw [h1, pow_zero, Nat.mod_eq_of_lt (by omega)]
    · exact ⟨⟨by simp, Or.inl rfl⟩, hone⟩
  · constructor
    · rw [remove_excess_val, hrv]
      have h1 : val ([1] : List Nat) = 1 := rfl
      rw [h1, Nat.one_mul, hb0v]
      exact (Nat.mod_modEq (val base) (val m)).pow (val e)
    · exact remove_excess_canonical hrc.1.1 hrc.2

theorem subLSDNil_length : ∀ (y : List Nat) (c : Nat),
    (subLSDNil y c).1.length = y.length
  | [], _ => rfl
  | y :: ys, c => by
      simp only [subLSDNil, List.length_cons]
      rw [subLSDNil_length ys]

theorem subLSD_length : ∀ (x y : List Nat) (c : Nat),
    (subLSD x y c).1.length = max x.length y.length
  | [], ys, c => by
      simp only [subLSD, List.length_nil, Nat.zero_max]
      exact subLSDNil_length ys c
  | x :: xs, [], c => by
      simp only [subLSD, List.length_cons, List.length_nil, Nat.max_zero]
      rw [subLSD_length xs [] (subDigit x 0 c).2]
      simp
  | x :: xs, y :: ys, c => by
      simp only [subLSD, List.length_cons]
      rw [subLSD_length xs ys (subDigit x y c).2]
      omega

theorem remove_excess_ne_nil {l : List Nat} (h : l ≠ []) : remove_excess l ≠ [] :=
  (remove_excess_shapeOk l h).1

theorem length_pos_of_ne_nil {l : List Nat} (h : l ≠ []) : 1 ≤ l.length := by
  cases l with
  | nil => exact absurd rfl h
  | cons => simp

theorem bsub_ne_nil {a b : List Nat} (h : a ≠ [] ∨ b ≠ []) : bsub a b ≠ [] := by
  apply remove_excess_ne_nil
  intro hcon
  have hl := congrArg List.length hcon
  rw [List.length_reverse, subLSD_length, List.length_reverse, List.length_reverse,
    List.length_nil] at hl
  rcases h with h | h
  · have := length_pos_of_ne_nil h
    omega
  · have := length_pos_of_ne_nil h
    omega

theorem mulInner_length (ai : Nat) (b : List Nat) (i : Nat) :
    ∀ (f : Nat) (prod : List Nat) (carry : Nat),
    (mulInner ai b i f prod carry).1.length = prod.length
  | 0, _, _ => rfl
  | f + 1, prod, carry => by
      rw [mulInner, mulInner_length ai b i f, List.length_set]

theorem mulOuter_length (a b : List Nat) : ∀ (f : Nat) (prod : List Nat),
    (mulOuter a b f prod).length = prod.length
  | 0, _ => rfl
  | f + 1, prod => by
      rw [mulOuter]
      by_cases h : a.getD f 0 = 0
      · rw [if_pos h, mulOuter_length a b f]
      · rw [if_neg h, mulOuter_length a b f, List.length_set, mulInner_length]

theorem bmul_ne_nil {a b : List Nat} (h : a ≠ [] ∨ b ≠ []) : bmul a b ≠ [] := by
  apply remove_excess_ne_nil
  intro hcon
  have hl := congrArg List.length hcon
  rw [mulOuter_length, List.length_replicate, List.length_nil] at hl
  rcases h with h | h
  · have := length_pos_of_ne_nil h
    omega
  · have := length_pos_of_ne_nil h
    omega

theorem divLoop_quo_extends (other : List Nat) :
    ∀ (ds quo rem : List Nat) (fuel : Nat) (q2 r2 : List Nat),
    divLoop other ds quo rem fuel = some (q2, r2) → ∃ t, q2 = quo ++ t
  | [], quo, rem, fuel, q2, r2 => by
      intro h
      rw [divLoop] at h
      simp at h
      exact ⟨[], by rw [← h.1]; simp⟩
  | d :: ds, quo, rem, fuel, q2, r2 => by
      intro h
      rw [divLoop] at h
      cases hstep : divStep other (stripZeros (rem ++ [d])) fuel with
      | none =>
          rw [hstep] at h
          exact absurd h (by simp)
      | some p =>
          rw [hstep] at h
          obtain ⟨t, ht⟩ := divLoop_quo_extends other ds (quo ++ [p.2]) p.1 fuel q2 r2 h
          exact ⟨[p.2] ++ t, by rw [ht, List.append_assoc]⟩

theorem bdiv_shapeOk (a b : List Nat) : shapeOk (bdiv a b) := by
  rw [bdiv]
  cases hf : bdivF a b (val a + 10) with
  | none => exact ⟨by simp, Or.inl rfl⟩
  | some q =>
      rw [bdivF] at hf
      cases hloop : divLoop b a [0] [] (val a + 10) with
      | none =>
          rw [hloop] at hf
          exact absurd hf (by simp)
      | some p =>
          rw [hloop] at hf
          simp at hf
          obtain ⟨t, ht⟩ := divLoop_quo_extends b a [0] [] (val a + 10) p.1 p.2
            (by rw [hloop])
          rw [← hf, ht]
          exact remove_excess_shapeOk _ (by simp)

theorem bdiv_ne_nil (a b : List Nat) : bdiv a b ≠ [] := (bdiv_shapeOk a b).1

theorem bmod_ne_nil (a b : List Nat) : bmod a b ≠ [] :=
  bsub_ne_nil (Or.inr (bmul_ne_nil (Or.inl (bdiv_ne_nil a b))))

theorem bsub_shapeOk {a b : List Nat} (h : a ≠ [] ∨ b ≠ []) : shapeOk (bsub a b) := by
  rw [bsub]
  apply remove_excess_shapeOk
  intro hcon
  have hl := congrArg List.length hcon
  rw [List.length_reverse, subLSD_length, List.length_reverse, List.length_reverse,
    List.length_nil] at hl
  rcases h with h | h
  · have := length_pos_of_ne_nil h
    omega
  · have := length_pos_of_ne_nil h
    omega

theorem bmul_shapeOk {a b : List Nat} (h : a ≠ [] ∨ b ≠ []) : shapeOk (bmul a b) := by
  rw [bmul]
  apply remove_excess_shapeOk
  intro hcon
  have hl := congrArg List.length hcon
  rw [mulOuter_length, List.length_replicate, List.length_nil] at hl
  rcases h with h | h
  · have := length_pos_of_ne_nil h
    omega
  · have := length_pos_of_ne_nil h
    omega

theorem bmod_shapeOk (a b : List Nat) : shapeOk (bmod a b) :=
  bsub_shapeOk (Or.inr (bmul_ne_nil (Or.inl (bdiv_ne_nil a b))))

theorem modExpLoop_ne_nil (m : List Nat) :
    ∀ (fuel : Nat) (mexp base e r : List Nat), mexp ≠ [] →
    modExpLoop m fuel mexp base e = some r → r ≠ []
  | 0, mexp, base, e, r, hne => by
      intro h
      rw [modExpLoop] at h
      by_cases h0 : e = [0]
      · rw [if_pos h0] at h
        simp at h
        rw [← h]
        exact hne
      · rw [if_neg h0] at h
        exact absurd h (by simp)
  | fuel + 1, mexp, base, e, r, hne => by
      intro h
      rw [modExpLoop] at h
      by_cases h0 : e = [0]
      · rw [if_pos h0] at h
        simp at h
        rw [← h]
        exact hne
      · rw [if_neg h0] at h
        have hne2 : (if bodd e then bmod (bmul mexp base) m else mexp) ≠ [] := by
          by_cases hbo : bodd e
          · rw [if_pos hbo]
            exact bmod_ne_nil _ _
          · rw [if_neg hbo]
            exact hne
        exact modExpLoop_ne_nil m fuel _ _ _ r hne2 h

theorem mod_exponent_shapeOk (base e m : List Nat) :
    shapeOk (mod_exponent base e m) := by
  rw [mod_exponent]
  cases hloop : modExpLoop m (val e + 2) [1] (bmod base m) e with
  | none =>
      simp only [Option.getD_none]
      exact remove_excess_shapeOk _ (by simp)
  | some r =>
      simp only [Option.getD_some]
      exact remove_excess_shapeOk _ (modExpLoop_ne_nil m _ _ _ _ r (by simp) hloop)

theorem headD_append_left {l : List Nat} (h : l ≠ []) (l2 : List Nat) :
    (l ++ l2).headD 0 = l.headD 0 := by
  cases l with
  | nil => exact absurd rfl h
  | cons => rfl

theorem natDigitsAux_spec : ∀ (fuel n : Nat), n < fuel →
    val (natDigitsAux fuel n) = n ∧ digitsOk (natDigitsAux fuel n) ∧
    natDigitsAux fuel n ≠ [] ∧
    (1 ≤ n → (natDigitsAux fuel n).headD 0 ≠ 0) ∧
    shapeOk (natDigitsAux fuel n)
  | 0, n, h => absurd h (Nat.not_lt_zero _)
  | fuel + 1, n, h => by
      by_cases h10 : n < 10
      · rw [natDigitsAux, if_pos h10]
        refine ⟨?_, ?_, by simp, ?_, ⟨by simp, Or.inl rfl⟩⟩
        · simp [val, valL]
        · intro d hd
          simp at hd
          omega
        · intro h1
          simpa using (by omega : n ≠ 0)
      · have hlt : n / 10 < fuel := by
          have := Nat.div_lt_self (by omega : 0 < n) (by omega : 1 < 10)
          omega
        obtain ⟨ih1, ih2, ih3, ih4, ih5⟩ := natDigitsAux_spec fuel (n / 10) hlt
        rw [natDigitsAux, if_neg h10]
        have hhead : (natDigitsAux fuel (n / 10) ++ [n % 10]).headD 0
            = (natDigitsAux fuel (n / 10)).headD 0 := headD_append_left ih3 _
        refine ⟨?_, ?_, by simp, ?_, ?_⟩
        · rw [val_append_digit, ih1]
          omega
        · intro d hd
          rcases List.mem_append.mp hd with hd | hd
          · exact ih2 d hd
          · simp at hd
            omega
        · intro _
          rw [hhead]
          exact ih4 (by omega)
        · exact ⟨by simp, Or.inr (by rw [hhead]; exact ih4 (by omega))⟩

theorem natDigits_val (n : Nat) : val (natDigits n) = n :=
  (natDigitsAux_spec (n + 1) n (by omega)).1

theorem natDigits_canonical (n : Nat) : canonical (natDigits n) :=
  ⟨(natDigitsAux_spec (n + 1) n (by omega)).2.2.2.2,
   (natDigitsAux_spec (n + 1) n (by omega)).2.1⟩

theorem natDigits_of_canonical {l : List Nat} (hl : canonical l) :
    natDigits (val l) = l :=
  canonical_inj (natDigits_canonical _) hl (natDigits_val _)

theorem natDigits_length_le {n k : Nat} (hk : 1 ≤ k) (h : n < 10 ^ k) :
    (natDigits n).length ≤ k := by
  by_contra hcon
  have hlen : k + 1 ≤ (natDigits n).length := by omega
  obtain ⟨⟨hne, hsh⟩, hd⟩ := natDigits_canonical n
  have hh : (natDigits n).headD 0 ≠ 0 := by
    rcases hsh with h1 | h1
    · omega
    · exact h1
  have h1 := pow_le_val hne hh
  have h2 : 10 ^ k ≤ 10 ^ ((natDigits n).length - 1) :=
    Nat.pow_le_pow_right (by omega) (by omega)
  rw [natDigits_val] at h1
  omega

theorem char3_digitsOk {c : Nat} (h : c < 1000) : digitsOk (char3 c) := by
  intro d hd
  simp [char3] at hd
  rcases hd with h1 | h1 | h1 <;> omega

theorem char3_val {c : Nat} (h : c < 1000) : val (char3 c) = c := by
  have h1 : c / 100 < 10 := by omega
  simp [char3, val, valL]
  omega

theorem string_to_bignum_length : ∀ s : List Nat,
    (string_to_bignum s).length = 3 * s.length
  | [] => rfl
  | c :: cs => by
      rw [string_to_bignum, List.length_append, string_to_bignum_length cs]
      simp [char3, List.length_cons]
      ring

theorem string_to_bignum_digitsOk {s : List Nat} (h : ∀ c ∈ s, c < 1000) :
    digitsOk (string_to_bignum s) := by
  induction s with
  | nil => intro d hd; simp [string_to_bignum] at hd
  | cons c cs ih =>
      intro d hd
      rw [string_to_bignum] at hd
      rcases List.mem_append.mp hd with h1 | h1
      · exact char3_digitsOk (h c (List.mem_cons_self c cs)) d h1
      · exact ih (fun x hx => h x (List.mem_cons_of_mem c hx)) d h1

theorem groups3_encode : ∀ {s : List Nat}, (∀ c ∈ s, c < 256) →
    groups3 (string_to_bignum s) = s := by
  intro s
  induction s with
  | nil => intro _; rfl
  | cons c cs ih =>
      intro h
      have hc : c < 256 := h c (List.mem_cons_self c cs)
      have hstep : string_to_bignum (c :: cs)
          = c / 100 :: (c / 10 % 10 :: (c % 10 :: string_to_bignum cs)) := rfl
      rw [hstep, groups3, ih (fun x hx => h x (List.mem_cons_of_mem c hx))]
      have hval : c / 100 * 100 + c / 10 % 10 * 10 + c % 10 = c := by omega
      rw [hval, Nat.mod_eq_of_lt hc]

theorem decode_encode_frame {s : List Nat} (hne : s ≠ [])
    (hc : ∀ c ∈ s, 32 ≤ c ∧ c < 256) :
    bignum_to_string (natDigits (val (string_to_bignum s))) = s := by
  cases s with
  | nil => exact absurd rfl hne
  | cons c0 cs =>
      obtain ⟨hc0lo, hc0hi⟩ := hc c0 (List.mem_cons_self c0 cs)
      have hcodes : ∀ c ∈ c0 :: cs, c < 1000 := fun c hcm => by
        have := hc c hcm
        omega
      have hdig : digitsOk (string_to_bignum (c0 :: cs)) :=
        string_to_bignum_digitsOk hcodes
      have hDne : string_to_bignum (c0 :: cs) ≠ [] := by
        intro hcon
        have := congrArg List.length hcon
        rw [string_to_bignum_length] at this
        simp at this
      have hre : natDigits (val (string_to_bignum (c0 :: cs)))
          = remove_excess (string_to_bignum (c0 :: cs)) := by
        apply canonical_inj (natDigits_canonical _)
          (remove_excess_canonical hDne hdig)
        rw [natDigits_val, remove_excess_val]
      rw [hre]
      have hstep : string_to_bignum (c0 :: cs)
          = c0 / 100 :: (c0 / 10 % 10 :: (c0 % 10 :: string_to_bignum cs)) := rfl
      by_cases hbig : 100 ≤ c0
      · have hd0 : c0 / 100 ≠ 0 := by omega
        have hrem : remove_excess (string_to_bignum (c0 :: cs))
            = string_to_bignum (c0 :: cs) := by
          rw [hstep, remove_excess, if_neg (by simp [hd0])]
        rw [hrem, bignum_to_string, padMul3,
          if_pos (by rw [string_to_bignum_length]; omega)]
        exact groups3_encode fun c hcm => (hc c hcm).2
      · have hd0 : c0 / 100 = 0 := by omega
        have hd1 : c0 / 10 % 10 ≠ 0 := by omega
        have hrem : remove_excess (string_to_bignum (c0 :: cs))
            = c0 / 10 % 10 :: (c0 % 10 :: string_to_bignum cs) := by
          rw [hstep, hd0, remove_excess, if_pos (by simp), remove_excess,
            if_neg (by simp [hd1])]
        have hlen2 : (c0 / 10 % 10 :: (c0 % 10 :: string_to_bignum cs)).length % 3 = 2 := by
          simp [List.length_cons, string_to_bignum_length]
          omega
        rw [hrem, bignum_to_string, padMul3, if_neg (by omega), hlen2]
        have hrep : List.replicate (3 - 2) 0 = [0] := rfl
        rw [hrep]
        have hglue : [0] ++ (c0 / 10 % 10 :: (c0 % 10 :: string_to_bignum cs))
            = string_to_bignum (c0 :: cs) := by
          rw [hstep, hd0]
          rfl
        rw [hglue]
        exact groups3_encode fun c hcm => (hc c hcm).2

theorem bn_to_string_roundtrip (l : List Nat) :
    bignumOfString (bn_to_string l) = l := by
  rw [bignumOfString, bn_to_string, List.map_map]
  have hid : ((fun c => c - 48) ∘ fun d => 48 + d) = id := by
    funext d
    simp
  rw [hid, List.map_id]

theorem lineNumField_length {ln : Nat} (h : ln ≤ 999) :
    (lineNumField ln).length = 3 := by
  rw [lineNumField, List.length_append, List.length_replicate, List.length_map]
  have := natDigits_length_le (by omega : (1 : Nat) ≤ 3) (by omega : ln < 10 ^ 3)
  omega

theorem lineNumField_codes (ln : Nat) :
    ∀ c ∈ lineNumField ln, 32 ≤ c ∧ c < 256 := by
  intro c hcm
  rw [lineNumField] at hcm
  rcases List.mem_append.mp hcm with h | h
  · have := List.eq_of_mem_replicate h
    omega
  · obtain ⟨d, hd, rfl⟩ := List.mem_map.mp h
    have := (natDigits_canonical ln).2 d hd
    omega

theorem padding_structure {input : List Nat} {ln : Nat}
    (hlen : input.length ≤ 96) (hln : ln ≤ 999) :
    padding input ln
      = lineNumField ln ++ input ++ List.replicate (96 - input.length) 32
        ++ lineNumField ln ∧
    (padding input ln).length = 102 := by
  have h3 := lineNumField_length hln
  have hcount : 102 - (lineNumField ln ++ input).length - 3 = 96 - input.length := by
    rw [List.length_append, h3]
    omega
  refine ⟨by rw [padding, hcount], ?_⟩
  rw [padding, hcount]
  simp only [List.length_append, List.length_replicate, h3]
  omega

theorem padding_codes {input : List Nat} {ln : Nat}
    (hcode : ∀ c ∈ input, 32 ≤ c ∧ c < 256) :
    ∀ c ∈ padding input ln, 32 ≤ c ∧ c < 256 := by
  intro c hcm
  rw [padding] at hcm
  rcases List.mem_append.mp hcm with h | h
  · rcases List.mem_append.mp h with h | h
    · rcases List.mem_append.mp h with h | h
      · exact lineNumField_codes ln c h
      · exact hcode c h
    · have := List.eq_of_mem_replicate h
      omega
  · exact lineNumField_codes ln c h

theorem half_roundtrip {ek dk nk h : List Nat}
    (hek : canonical ek) (hdk : canonical dk) (hnk : canonical nk)
    (hbig : 10 ^ 153 ≤ val nk)
    (hinv : ∀ x : Nat, x < 10 ^ 153 → (x ^ val ek % val nk) ^ val dk % val nk = x)
    (hh : h.length = 51) (hhc : ∀ c ∈ h, 32 ≤ c ∧ c < 256) :
    bignum_to_string (mod_exponent
      (bignumOfString (bn_to_string (mod_exponent (string_to_bignum h) ek nk)))
      dk nk) = h := by
  have hm2 : 2 ≤ val nk := by
    have h10 : (10 : Nat) ^ 1 ≤ 10 ^ 153 := Nat.pow_le_pow_right (by omega) (by omega)
    have : (10 : Nat) ^ 1 = 10 := by norm_num
    omega
  have hd1 : digitsOk (string_to_bignum h) :=
    string_to_bignum_digitsOk fun c hcm => by
      have := hhc c hcm
      omega
  have hne1 : string_to_bignum h ≠ [] := by
    intro hcon
    have h2 := congrArg List.length hcon
    rw [string_to_bignum_length, hh] at h2
    simp at h2
  have hvlt : val (string_to_bignum h) < 10 ^ 153 := by
    have h2 := val_lt_pow hd1
    rw [string_to_bignum_length, hh] at h2
    simpa using h2
  obtain ⟨he1v, he1c⟩ := mod_exponent_val hd1 hne1 hek hnk (by omega) (Or.inl hm2)
  rw [bn_to_string_roundtrip]
  obtain ⟨he2v, he2c⟩ := mod_exponent_val he1c.2 he1c.1.1 hdk hnk (by omega)
    (Or.inl hm2)
  have hval2 : val (mod_exponent (mod_exponent (string_to_bignum h) ek nk) dk nk)
      = val (string_to_bignum h) := by
    rw [he2v, he1v]
    exact hinv _ hvlt
  have hfinal : mod_exponent (mod_exponent (string_to_bignum h) ek nk) dk nk
      = natDigits (val (string_to_bignum h)) := by
    rw [← hval2]
    exact (natDigits_of_canonical he2c).symm
  rw [hfinal]
  exact decode_encode_frame (fun hcon => by rw [hcon] at hh; simp at hh) hhc

theorem dropFrameMarks_frame {fld input spaces : List Nat}
    (hfld : fld.length = 3) (hmid : (input ++ spaces).length = 96) :
    dropFrameMarks (fld ++ input ++ spaces ++ fld) = input ++ spaces := by
  rw [List.length_append] at hmid
  have hlen : (fld ++ input ++ spaces ++ fld).length = 102 := by
    simp only [List.length_append, hfld]
    omega
  rw [dropFrameMarks, if_pos (by omega), hlen]
  have hdrop : (fld ++ input ++ spaces ++ fld).drop 3 = input ++ spaces ++ fld := by
    rw [List.append_assoc, List.append_assoc, ← hfld, List.drop_left,
      ← List.append_assoc]
  rw [hdrop]
  have hassoc : input ++ spaces ++ fld = (input ++ spaces) ++ fld := rfl
  have h96 : (102 : Nat) - 6 = (input ++ spaces).length := by
    rw [List.length_append]
    omega
  rw [hassoc, h96, List.take_left]

theorem dropWhile_spaces_replicate : ∀ (k : Nat) (t : List Nat),
    List.dropWhile (· == 32) (List.replicate k 32 ++ t)
      = List.dropWhile (· == 32) t
  | 0, t => rfl
  | k + 1, t => by
      rw [List.replicate_succ, List.cons_append, List.dropWhile_cons]
      simp only [beq_self_eq_true, if_true]
      exact dropWhile_spaces_replicate k t

theorem rstripSpaces_append_spaces (l : List Nat) (k : Nat) :
    rstripSpaces (l ++ List.replicate k 32) = rstripSpaces l := by
  rw [rstripSpaces, rstripSpaces, List.reverse_append, List.reverse_replicate,
    dropWhile_spaces_replicate]

theorem rstripSpaces_of_getLast {l : List Nat} (h : l.getLast? ≠ some 32) :
    rstripSpaces l = l := by
  rw [rstripSpaces]
  cases hrev : l.reverse with
  | nil =>
      have h2 : l = [] := by
        rw [← List.reverse_reverse l, hrev]
        rfl
      rw [h2]
      rfl
  | cons x t =>
      have hx : x ≠ 32 := by
        have h2 : l.getLast? = some x := by
          rw [← List.head?_reverse, hrev]
          rfl
        intro hcon
        rw [hcon] at h2
        exact h h2
      rw [List.dropWhile_cons, if_neg (by simp [hx]), ← hrev,
        List.reverse_reverse]

theorem decrypt_encrypt_frame {ek dk nk input : List Nat} {ln : Nat}
    (hek : canonical ek) (hdk : canonical dk) (hnk : canonical nk)
    (hbig : 10 ^ 153 ≤ val nk)
    (hinv : ∀ x : Nat, x < 10 ^ 153 → (x ^ val ek % val nk) ^ val dk % val nk = x)
    (hlen : input.length ≤ 96) (hln : ln ≤ 999)
    (hcode : ∀ c ∈ input, 32 ≤ c ∧ c < 256) :
    large_decrypt dk nk (encryptLine ek nk (padding input ln)).1
      (encryptLine ek nk (padding input ln)).2 = rstripSpaces input := by
  obtain ⟨hstruct, hflen⟩ := padding_structure hlen hln
  have hfcodes : ∀ c ∈ padding input ln, 32 ≤ c ∧ c < 256 := padding_codes hcode
  have ht_len : ((padding input ln).take 51).length = 51 := by
    rw [List.length_take, hflen]
    omega
  have hd_len : ((padding input ln).drop 51).length = 51 := by
    rw [List.length_drop, hflen]
  have ht_codes : ∀ c ∈ (padding input ln).take 51, 32 ≤ c ∧ c < 256 :=
    fun c hcm => hfcodes c (List.take_subset _ _ hcm)
  have hd_codes : ∀ c ∈ (padding input ln).drop 51, 32 ≤ c ∧ c < 256 :=
    fun c hcm => hfcodes c (List.drop_subset _ _ hcm)
  have h1 : (encryptLine ek nk (padding input ln)).1
      = bn_to_string (mod_exponent
          (string_to_bignum ((padding input ln).take 51)) ek nk) := rfl
  have h2 : (encryptLine ek nk (padding input ln)).2
      = bn_to_string (mod_exponent
          (string_to_bignum ((padding input ln).drop 51)) ek nk) := rfl
  rw [large_decrypt, h1, h2,
    half_roundtrip hek hdk hnk hbig hinv ht_len ht_codes,
    half_roundtrip hek hdk hnk hbig hinv hd_len hd_codes,
    List.take_append_drop, hstruct,
    dropFrameMarks_frame (lineNumField_length hln)
      (by rw [List.length_append, List.length_replicate]; omega),
    rstripSpaces_append_spaces]

theorem powBrute_eq_pow (b : Nat) : ∀ n, powBrute b n = b ^ n
  | 0 => rfl
  | n + 1 => by rw [powBrute, pow_succ, powBrute_eq_pow b n]

theorem toyModulus_val : val toyModulus = 10 ^ 153 := by
  rw [toyModulus, val_cons, val_replicate_zero, List.length_replicate]
  omega

theorem toyModulus_canonical : canonical toyModulus := by
  refine ⟨⟨by simp [toyModulus], Or.inr (by simp [toyModulus])⟩, ?_⟩
  intro d hd
  rw [toyModulus] at hd
  rcases List.mem_cons.mp hd with h | h
  · omega
  · have := List.eq_of_mem_replicate h
    omega

theorem canonical_one : canonical [1] := by
  refine ⟨⟨by simp, Or.inl rfl⟩, ?_⟩
  intro d hd
  simp at hd
  omega

theorem val_one : val ([1] : List Nat) = 1 := rfl

/-- With public and private exponent 1 and modulus `10 ^ 153`, the RSA
inversion property holds for every half-block value. -/
theorem toy_inv : ∀ x : Nat, x < 10 ^ 153 →
    (x ^ val [1] % val toyModulus) ^ val [1] % val toyModulus = x := by
  intro x hx
  rw [val_one, toyModulus_val]
  simp only [pow_one]
  rw [Nat.mod_eq_of_lt hx, Nat.mod_eq_of_lt hx]

theorem encryptLines_length (ek nk : List Nat) :
    ∀ (lines : List (List Nat)) (start : Nat),
    (encryptLines ek nk lines start).length = lines.length
  | [], _ => rfl
  | L :: rest, start => by
      rw [encryptLines, List.length_cons, List.length_cons,
        encryptLines_length ek nk rest (start + 1)]

theorem encryptLines_getElem (ek nk : List Nat) :
    ∀ (lines : List (List Nat)) (start i : Nat),
    (encryptLines ek nk lines start)[i]?
      = (lines[i]?).map
          (fun L => encryptLine ek nk (padding (truncate96 L) (start + i)))
  | [], start, i => by simp [encryptLines]
  | L :: rest, start, 0 => by simp [encryptLines]
  | L :: rest, start, i + 1 => by
      simp only [encryptLines, List.getElem?_cons_succ]
      rw [encryptLines_getElem ek nk rest (start + 1) i]
      have h : start + 1 + i = start + (i + 1) := by omega
      rw [h]

/-- On the domain where the frame fits (line-number field plus input at
most 99 characters) the `size_t` arithmetic of `Bignum::padding` never
wraps, no exception is thrown, and the checked embedding agrees with the
plain one. -/
theorem paddingChecked_eq_padding (input : List Nat) (ln : Nat)
    (h : (lineNumField ln ++ input).length ≤ 99) :
    paddingChecked input ln = some (padding input ln) := by
  have hbig : (2 : Nat) ^ 64 = 18446744073709551616 := by norm_num
  have h1 : sizeSub 102 (lineNumField ln ++ input).length
      = 102 - (lineNumField ln ++ input).length := by
    rw [sizeSub, hbig]; omega
  have h2 : sizeSub (102 - (lineNumField ln ++ input).length) 3
      = 102 - (lineNumField ln ++ input).length - 3 := by
    rw [sizeSub, hbig]; omega
  have hc : 102 - (lineNumField ln ++ input).length - 3 ≤ 2 ^ 62 :=
    le_trans (Nat.sub_le _ _) (le_trans (Nat.sub_le _ _) (by norm_num))
  rw [paddingChecked, h1, h2, if_pos hc, padding]

/-- A failed framing of the current line fails the whole loop, whatever
the remaining lines produce. -/
theorem consLine_none_left (ek nk : List Nat)
    (r : Option (List (List Nat × List Nat))) : consLine ek nk none r = none := by
  cases r <;> rfl

/-- If any line's padding throws, the whole checked line loop returns
`none`: the exception propagates out of `large_encrypt` before the results
are collected. -/
theorem encryptLinesChecked_none (ek nk : List Nat) :
    ∀ (lines : List (List Nat)) (start i : Nat), i < lines.length →
    paddingChecked (truncate96 (lines.getD i [])) (start + i) = none →
    encryptLinesChecked ek nk lines start = none
  | [], _, i, hi, _ => absurd hi (Nat.not_lt_zero i)
  | L :: rest, start, 0, _, hpad => by
      rw [List.getD_cons_zero, Nat.add_zero] at hpad
      rw [encryptLinesChecked, hpad, consLine_none_left]
  | L :: rest, start, i + 1, hi, hpad => by
      have hi' : i < rest.length := Nat.lt_of_succ_lt_succ hi
      have harith : start + (i + 1) = start + 1 + i := by omega
      rw [harith, List.getD_cons_succ] at hpad
      rw [encryptLinesChecked,
        encryptLinesChecked_none ek nk rest (start + 1) i hi' hpad]
      cases paddingChecked (truncate96 L) start <;> rfl

/-- When every line together with its line-number field fits the frame,
no padding call throws and the checked line loop returns exactly the
sequential list of per-line encryptions. -/
theorem encryptLinesChecked_spec (ek nk : List Nat) :
    ∀ (lines : List (List Nat)) (start : Nat),
    (∀ i, i < lines.length →
        (lineNumField (start + i) ++ truncate96 (lines.getD i [])).length ≤ 99) →
    encryptLinesChecked ek nk lines start = some (encryptLines ek nk lines start)
  | [], _, _ => rfl
  | L :: rest, start, h => by
      have h0 : (lineNumField start ++ truncate96 L).length ≤ 99 := by
        have h00 := h 0 (Nat.succ_pos _)
        simpa using h00
      have hrest : ∀ i, i < rest.length →
          (lineNumField (start + 1 + i) ++ truncate96 (rest.getD i [])).length ≤ 99 := by
        intro i hi
        have hh := h (i + 1) (Nat.succ_lt_succ hi)
        have harith : start + (i + 1) = start + 1 + i := by omega
        rw [harith] at hh
        simpa using hh
      rw [encryptLinesChecked, paddingChecked_eq_padding (truncate96 L) start h0,
        encryptLinesChecked_spec ek nk rest (start + 1) hrest]
      rfl

/-- Claim C1, as stated, is false on the code: with valid toy keys (both
exponents 1, modulus `10 ^ 153`, which invert every half-block value) the
printable-ASCII line `"a "` — codes `[97, 32]`, length 2 ≤ 96 — encrypts to
one ciphertext pair whose decryption is `"a"`: `large_decrypt` strips the
trailing space together with the frame padding. -/
theorem C1_counterexample :
    large_encrypt [1] toyModulus [[97, 32]]
      = [encryptLine [1] toyModulus (padding [97, 32] 1)] ∧
    large_decrypt [1] toyModulus
      (encryptLine [1] toyModulus (padding [97, 32] 1)).1
      (encryptLine [1] toyModulus (padding [97, 32] 1)).2 = [97] ∧
    ([97] : List Nat) ≠ [97, 32] := by
  refine ⟨?_, ?_, by decide⟩
  · have htr : truncate96 [97, 32] = [97, 32] := rfl
    rw [large_encrypt, encryptLines, htr, encryptLines]
  have h : large_decrypt [1] toyModulus
      (encryptLine [1] toyModulus (padding [97, 32] 1)).1
      (encryptLine [1] toyModulus (padding [97, 32] 1)).2
      = rstripSpaces [97, 32] :=
    decrypt_encrypt_frame canonical_one canonical_one toyModulus_canonical
      toyModulus_val.ge toy_inv (by decide) (by decide) (by decide)
  rw [h]
  rfl

/-- Claim C1 (corrected): for every printable-ASCII line `L` of length at
most 96, and RSA keys `ek, dk, nk` whose modulus exceeds every encoded
half-block (`10 ^ 153 ≤ val nk`) and which invert on that range,
`large_encrypt` maps `[L]` to exactly one ciphertext pair and
`large_decrypt` on that pair returns `L` with its trailing spaces removed —
hence `L` itself exactly when `L` does not end in a space. -/
theorem C1_roundtrip_amended {ek dk nk L : List Nat}
    (hek : canonical ek) (hdk : canonical dk) (hnk : canonical nk)
    (hbig : 10 ^ 153 ≤ val nk)
    (hinv : ∀ x : Nat, x < 10 ^ 153 → (x ^ val ek % val nk) ^ val dk % val nk = x)
    (hlen : L.length ≤ 96) (hcode : ∀ c ∈ L, 32 ≤ c ∧ c ≤ 126) :
    large_encrypt ek nk [L] = [encryptLine ek nk (padding L 1)] ∧
    large_decrypt dk nk (encryptLine ek nk (padding L 1)).1
      (encryptLine ek nk (padding L 1)).2 = rstripSpaces L ∧
    (L.getLast? ≠ some 32 →
      large_decrypt dk nk (encryptLine ek nk (padding L 1)).1
        (encryptLine ek nk (padding L 1)).2 = L) := by
  have htr : truncate96 L = L := by
    rw [truncate96]
    exact List.take_of_length_le hlen
  have hfirst : large_encrypt ek nk [L] = [encryptLine ek nk (padding L 1)] := by
    rw [large_encrypt, encryptLines, encryptLines, htr]
  have hcode2 : ∀ c ∈ L, 32 ≤ c ∧ c < 256 := fun c hcm => by
    have := hcode c hcm
    omega
  have hmain : large_decrypt dk nk (encryptLine ek nk (padding L 1)).1
      (encryptLine ek nk (padding L 1)).2 = rstripSpaces L :=
    decrypt_encrypt_frame hek hdk hnk hbig hinv hlen (by omega) hcode2
  exact ⟨hfirst, hmain, fun hlast => by rw [hmain, rstripSpaces_of_getLast hlast]⟩

/-- Witness for C1 (corrected): the line `"a"` (code `[97]`, no trailing
space) round-trips exactly under the toy keys. -/
theorem C1_roundtrip_amended_witness :
    ([97] : List Nat).length ≤ 96 ∧
    large_decrypt [1] toyModulus (encryptLine [1] toyModulus (padding [97] 1)).1
      (encryptLine [1] toyModulus (padding [97] 1)).2 = [97] := by
  refine ⟨by decide, ?_⟩
  obtain ⟨h1, h2, h3⟩ := C1_roundtrip_amended canonical_one canonical_one
    toyModulus_canonical toyModulus_val.ge toy_inv
    (by decide : ([97] : List Nat).length ≤ 96)
    (by decide : ∀ c ∈ ([97] : List Nat), 32 ≤ c ∧ c ≤ 126)
  exact h3 (by decide)

/-- Claim C2, as stated, is false on the code: for base 1, exponent 0 and
the non-zero modulus 1, `mod_exponent` returns `Bignum("1")` (value 1), but
the brute-force reference gives `1 ^ 0 % 1 = 0`. -/
theorem C2_counterexample :
    val (mod_exponent (natDigits 1) (natDigits 0) (natDigits 1))
      ≠ powBrute 1 0 % 1 := by decide

/-- Claim C2 (corrected): `mod_exponent (base, e, m)` equals the
brute-force repeated-multiplication reference reduced mod `m` for every
non-negative base and exponent and non-zero modulus, except in the single
corner `m = 1 ∧ e = 0` where the code returns 1 instead of 0 — i.e.
whenever `2 ≤ m` or `1 ≤ e` (so in particular for exponents 0, 1, 2 and
multi-digit exponents once `m ≥ 2`). -/
theorem C2_mod_exponent_amended (b e m : Nat) (hm : 0 < m)
    (hnt : 2 ≤ m ∨ 1 ≤ e) :
    val (mod_exponent (natDigits b) (natDigits e) (natDigits m))
      = powBrute b e % m := by
  obtain ⟨hv, _⟩ := mod_exponent_val (natDigits_canonical b).2
    (natDigits_canonical b).1.1 (natDigits_canonical e) (natDigits_canonical m)
    (by rw [natDigits_val]; omega)
    (by rw [natDigits_val, natDigits_val]; exact hnt)
  rw [hv, natDigits_val, natDigits_val, natDigits_val, powBrute_eq_pow]

/-- Witness for C2 (corrected): `3 ^ 5 mod 7` computed by the code equals
the brute-force value. -/
theorem C2_mod_exponent_amended_witness :
    (0 : Nat) < 7 ∧
    val (mod_exponent (natDigits 3) (natDigits 5) (natDigits 7))
      = powBrute 3 5 % 7 :=
  ⟨by decide, C2_mod_exponent_amended 3 5 7 (by decide) (Or.inl (by decide))⟩

/-- Claim C3: for canonical digit vectors `a`, `b` with `b` non-zero,
`operator/` returns the Euclidean quotient and `operator%` the Euclidean
remainder: `a = (a / b) * b + (a % b)` with `a % b < b`, and `a / a = 1`,
`a % a = 0` for non-zero `a`. -/
theorem C3_divide_modulo (a b : List Nat) (ha : canonical a) (hb : canonical b)
    (hbpos : 0 < val b) :
    val (bdiv a b) = val a / val b ∧
    val (bmod a b) = val a % val b ∧
    val a = val (bdiv a b) * val b + val (bmod a b) ∧
    val (bmod a b) < val b ∧
    (0 < val a → bdiv a a = [1] ∧ bmod a a = [0]) := by
  obtain ⟨hq, hqc⟩ := bdiv_spec ha.2 hb hbpos
  obtain ⟨hr, hrc⟩ := bmod_spec ha.2 ha.1.1 hb hbpos
  refine ⟨hq, hr, ?_, ?_, ?_⟩
  · rw [hq, hr]
    exact (Nat.div_add_mod' (val a) (val b)).symm
  · rw [hr]
    exact Nat.mod_lt _ hbpos
  · intro hapos
    obtain ⟨hq2, hq2c⟩ := bdiv_spec ha.2 ha hapos
    obtain ⟨hr2, hr2c⟩ := bmod_spec ha.2 ha.1.1 ha hapos
    constructor
    · apply canonical_inj hq2c canonical_one
      rw [hq2, val_one, Nat.div_self hapos]
    · apply canonical_inj hr2c canonical_zero
      rw [hr2]
      have h0 : val ([0] : List Nat) = 0 := rfl
      rw [h0, Nat.mod_self]

/-- Witness for C3: `72 / 7` on digit vectors is the Euclidean quotient. -/
theorem C3_divide_modulo_witness :
    0 < val (natDigits 7) ∧
    val (bdiv (natDigits 72) (natDigits 7))
      = val (natDigits 72) / val (natDigits 7) :=
  ⟨by decide,
   (C3_divide_modulo (natDigits 72) (natDigits 7) (by decide) (by decide)
     (by decide)).1⟩

/-- Claim C4 (a bug in the code, the claim states the spec's required
behaviour): dividing by the zero divisor does not fail with a
`DivisionByZero` error — the C++ subtract loop `while (!(rem < other))`
never exits, because `rem - 0 = rem` and `rem < Bignum("0")` is false for
every non-empty remainder.  In the fuelled embedding, dividing
`Bignum("1")` by `Bignum("0")` returns `none` for every fuel: no amount of
computation completes, and no error path exists in the code. -/
theorem C4_divide_by_zero_diverges (fuel : Nat) : bdivF [1] [0] fuel = none :=
  bdivF_one_zero_none fuel

/-- Claim C5, as stated, is false on the code: the `Bignum(std::string)`
constructor keeps leading zeros — `Bignum("00")` (codes `[48, 48]`) has
digit vector `[0, 0]`, which violates the canonical-form invariant. -/
theorem C5_counterexample :
    bignumOfString [48, 48] = [0, 0] ∧ ¬ shapeOk (bignumOfString [48, 48]) :=
  ⟨rfl, by decide⟩

/-- Claim C5 (corrected): values produced by the arithmetic operations —
subtract, multiply, divide, modulo, and `mod_exponent` — always satisfy the
canonical-form invariant (no leading zero unless the length is exactly 1),
because each ends in `remove_excess`; string construction, by contrast,
copies the digits verbatim (see the counterexample). -/
theorem C5_invariant_amended (a b m : List Nat) (ha : a ≠ []) (hb : b ≠ []) :
    shapeOk (bsub a b) ∧ shapeOk (bmul a b) ∧ shapeOk (bdiv a b) ∧
    shapeOk (bmod a b) ∧ shapeOk (mod_exponent a b m) :=
  ⟨bsub_shapeOk (Or.inl ha), bmul_shapeOk (Or.inr hb), bdiv_shapeOk a b,
   bmod_shapeOk a b, mod_exponent_shapeOk a b m⟩

/-- Witness for C5 (corrected): a concrete subtraction result satisfies the
invariant. -/
theorem C5_invariant_amended_witness :
    ([1, 2] : List Nat) ≠ [] ∧ shapeOk (bsub [1, 2] [7]) :=
  ⟨by decide, (C5_invariant_amended [1, 2] [7] [5] (by decide) (by decide)).1⟩

/-- Claim C6: for digit vectors `a ≥ b`, `operator-` returns the digit
vector whose numeric value is exactly `a - b`, and the result is in
canonical form. -/
theorem C6_subtract_correct (a b : List Nat) (ha : canonical a)
    (hb : canonical b) (hle : val b ≤ val a) :
    val (bsub a b) = val a - val b ∧ canonical (bsub a b) := by
  obtain ⟨h1, h2, h3⟩ := bsub_spec ha.2 hb.2 hle
  exact ⟨h1, h3 ha.1.1⟩

/-- Witness for C6: `52 - 19 = 33` on digit vectors. -/
theorem C6_subtract_correct_witness :
    val [1, 9] ≤ val [5, 2] ∧ val (bsub [5, 2] [1, 9]) = val [5, 2] - val [1, 9] :=
  ⟨by decide,
   (C6_subtract_correct [5, 2] [1, 9] (by decide) (by decide) (by decide)).1⟩

/-- Claim C7, as stated, is false on the modelled code: for the
single-character string with code point 500 (< 1000), encoding gives the
digit vector `[5, 0, 0]` but decoding casts the group value through `char`
(low byte), yielding code 244 — the round-trip fails above 255. -/
theorem C7_counterexample :
    bignum_to_string (string_to_bignum [500]) = [244] ∧
    ([244] : List Nat) ≠ [500] := by decide

/-- Claim C7 (corrected): for every string whose code points are below 256
(the range of the code's `char`, read through `unsigned char`), decoding
the encoding returns the string exactly; no zero-padding is ever introduced
because the encoded digit count is already a multiple of 3. -/
theorem C7_codec_roundtrip_amended (s : List Nat) (h : ∀ c ∈ s, c < 256) :
    bignum_to_string (string_to_bignum s) = s := by
  rw [bignum_to_string, padMul3, if_pos (by rw [string_to_bignum_length]; omega)]
  exact groups3_encode h

/-- Witness for C7 (corrected): `"Hi"` (codes 72, 105) round-trips. -/
theorem C7_codec_roundtrip_amended_witness :
    bignum_to_string (string_to_bignum [72, 105]) = [72, 105] :=
  C7_codec_roundtrip_amended [72, 105] (by decide)

/-- Claim C8, as stated, is false on the code: the line-number field of
`padding` is space-padded (`setfill(' ')`), not zero-padded — for line 1
the frame starts with `"  1"` (codes `[32, 32, 49]`), not `"001"`
(codes `[48, 48, 49]`). -/
theorem C8_counterexample :
    (padding (truncate96 [65]) 1).take 3 = [32, 32, 49] ∧
    (padding (truncate96 [65]) 1).take 3 ≠ [48, 48, 49] := by decide

/-- Claim C8 (corrected): for every input line and every line number up to
999, encryption truncates the content to at most 96 characters and frames
it as a 3-character space-padded line-number field, the content, space
padding, and the same field again — 102 characters in total, split into
halves of 51 characters each. -/
theorem C8_frame_amended (L : List Nat) (ln : Nat) (hln : ln ≤ 999) :
    (truncate96 L).length ≤ 96 ∧
    padding (truncate96 L) ln
      = lineNumField ln ++ truncate96 L
        ++ List.replicate (96 - (truncate96 L).length) 32 ++ lineNumField ln ∧
    (lineNumField ln).length = 3 ∧
    (padding (truncate96 L) ln).length = 102 ∧
    ((padding (truncate96 L) ln).take 51).length = 51 ∧
    ((padding (truncate96 L) ln).drop 51).length = 51 := by
  have htl : (truncate96 L).length ≤ 96 := by
    rw [truncate96, List.length_take]
    omega
  obtain ⟨h1, h2⟩ := padding_structure htl hln
  refine ⟨htl, h1, lineNumField_length hln, h2, ?_, ?_⟩
  · rw [List.length_take, h2]
    omega
  · rw [List.length_drop, h2]

/-- Witness for C8 (corrected): the frame of the line `"A"` numbered 1 is
102 characters long. -/
theorem C8_frame_amended_witness :
    (1 : Nat) ≤ 999 ∧ (padding (truncate96 [65]) 1).length = 102 :=
  ⟨by decide, (C8_frame_amended [65] 1 (by decide)).2.2.2.1⟩

/-- Claim C9: the square-and-multiply loop of `mod_exponent` terminates for
every exponent in canonical form and every modulus, because the exponent
value at least halves each iteration (integer division by 2 strictly
decreases a positive value): fuel `val e + 2` always suffices for the loop
to reach `[0]` and return. -/
theorem C9_modexp_terminates (m mexp base e : List Nat) (he : canonical e) :
    (modExpLoop m (val e + 2) mexp base e).isSome = true :=
  modExpLoop_isSome m (val e + 2) mexp base e he (by omega)

/-- Witness for C9: the loop for exponent 5 terminates. -/
theorem C9_modexp_terminates_witness :
    (modExpLoop [7] (val [5] + 2) [1] [3] [5]).isSome = true :=
  C9_modexp_terminates [7] [1] [3] [5] (by decide)

/-- Claim C10, as stated, is false on the code: it promises one ciphertext
pair per input line for every multi-line text, but for a 1000-line text
whose 1000th line has 96 characters the line-number field is 4 characters
wide, `Bignum::padding` computes `padding_check = 102 - 100 = 2` and the
`size_t` count `padding_check - 3` wraps, so `std::string::append` throws
`std::length_error` and `large_encrypt` returns no pairs at all — the
checked embedding returns `none` instead of the promised 1000 pairs. -/
theorem C10_counterexample :
    large_encryptChecked [1] toyModulus
        (List.replicate 999 [] ++ [List.replicate 96 97]) = none ∧
    (List.replicate 999 ([] : List Nat) ++ [List.replicate 96 97]).length
      = 1000 := by
  constructor
  · rw [large_encryptChecked]
    apply encryptLinesChecked_none [1] toyModulus _ 1 999
      (by rw [List.length_append, List.length_replicate, List.length_singleton]
          omega)
    have hget : (List.replicate 999 ([] : List Nat)
        ++ [List.replicate 96 97]).getD 999 [] = List.replicate 96 97 := by
      rw [List.getD_append_right]
      · rw [List.length_replicate, Nat.sub_self, List.getD_cons_zero]
      · rw [List.length_replicate]
    rw [hget]
    decide
  · rw [List.length_append, List.length_replicate, List.length_singleton]

/-- Claim C10, amended: for every input whose lines all fit their frame —
the line-number field (3 characters up to line 999, wider beyond) plus the
line truncated to 96 characters totals at most 99 characters, which holds
in particular for every text of at most 999 lines — `large_encrypt` throws
nothing (the checked embedding returns `some`) and returns exactly one
ciphertext pair per input line, in input order: the i-th returned pair is
the encryption of the i-th input line framed with line number `i + 1`.
The futures are pure functions of their captured frames and are collected
in submission order, so the results appear in input order regardless of
task completion order. -/
theorem C10_order_amended (ek nk : List Nat) (lines : List (List Nat))
    (hok : ∀ i, i < lines.length →
      (lineNumField (1 + i) ++ truncate96 (lines.getD i [])).length ≤ 99) :
    large_encryptChecked ek nk lines = some (large_encrypt ek nk lines) ∧
    (large_encrypt ek nk lines).length = lines.length ∧
    ∀ i : Nat, (large_encrypt ek nk lines)[i]?
      = (lines[i]?).map
          (fun L => encryptLine ek nk (padding (truncate96 L) (1 + i))) := by
  refine ⟨encryptLinesChecked_spec ek nk lines 1 hok,
    encryptLines_length ek nk lines 1, fun i => ?_⟩
  rw [large_encrypt, encryptLines_getElem]

/-- Witness for the amended C10: the single line `"Hi"` (codes
`[72, 105]`) frames without a throw and produces its one ciphertext
pair. -/
theorem C10_order_amended_witness :
    large_encryptChecked [1] toyModulus [[72, 105]]
      = some (large_encrypt [1] toyModulus [[72, 105]]) :=
  (C10_order_amended [1] toyModulus [[72, 105]] (by decide)).1

end BignumSpec
